import Mathlib

set_option maxHeartbeats 1000000

namespace TaskSched

/-- A task record from the input file: `Task(name, duration, dependencies, task_type,
parameters)` (src/task_scheduler.py lines 9-15). The Python `parameters` dict is
modelled as an association list. -/
structure Task where
  name : String
  duration : Nat
  dependencies : List String
  task_type : String
  parameters : List (String × String)
deriving DecidableEq

/-- Names of all tasks in input order (the `task_names` set collected by `parse_input`,
kept as a list so that order-sensitive statements stay expressible). -/
def namesOf (tasks : List Task) : List String := tasks.map Task.name

/-- Python `set.add` on our list model of a set: insert if not already present. -/
def setAdd (s : List String) (x : String) : List String := if x ∈ s then s else x :: s

/-- Python `set.remove` on our list model of a set. -/
def setRemove (s : List String) (x : String) : List String := s.filter (fun y => !(y == x))

/-- Python dict assignment `d[k] = v` on an association-list model: overwrite the
existing binding if present, else append a new one (dicts preserve insertion order). -/
def dictUpd {α : Type} (l : List (String × α)) (k : String) (v : α) : List (String × α) :=
  if (l.lookup k).isSome then l.map (fun p => if p.1 == k then (k, v) else p)
  else l ++ [(k, v)]

/-- A single-quote character, built by code point so the message strings below can
reproduce the source format exactly. -/
def sq : String := String.singleton (Char.ofNat 39)

/-- Line 67: the message of `parse_input` for a dependency that names no task. -/
def unknownDepMsg (taskName dep : String) : String :=
  "Task " ++ taskName ++ ": Unknown dependency " ++ sq ++ dep ++ sq

/-- The inner loop of the existence check (lines 65-67): scan one task's
dependency list, reporting the first nonempty name absent from `task_names`. -/
def depScan (taskName : String) (names : List String) : List String → Option String
  | [] => none
  | d :: ds =>
    if d ≠ "" ∧ d ∉ names then some (unknownDepMsg taskName d)
    else depScan taskName names ds

/-- Lines 63-67 of `parse_input`: after reading every line, check that each task's
dependencies all exist, reporting the first offender. -/
def checkDepsAux (names : List String) : List Task → Option String
  | [] => none
  | t :: ts =>
    match depScan t.name names t.dependencies with
    | some m => some m
    | none => checkDepsAux names ts

def checkDeps (tasks : List Task) : Option String := checkDepsAux (namesOf tasks) tasks

/-- `next(t for t in tasks if t.name == dep)` (line 85): linear search for the first
task with the given name; `none` models the StopIteration crash when absent. -/
def find_task (tasks : List Task) (dep : String) : Option Task :=
  tasks.find? (fun t => t.name == dep)

/-- Outcome of the recursive `dfs` (lines 80-92): `ok` carries the updated
`visited`/`rec_stack` sets and the boolean result; `crash` models the StopIteration
raised by the lookup on line 85; `outOfFuel` is an artefact of the fuel-bounded
embedding of Python recursion and is proved unreachable below. -/
inductive DfsOut where
  | ok (visited recStack : List String) (cycle : Bool)
  | crash
  | outOfFuel
deriving DecidableEq

/-- The `for dep in task.dependencies` loop of `dfs` (lines 83-90): the lookup on
line 85 runs for every nonempty dependency, before the membership tests. The
recursive call of line 87 is supplied as `next` (it is `dfs` at the remaining
recursion budget), keeping the embedding structurally recursive. -/
def dfsLoop (tasks : List Task) (next : List String → List String → Task → DfsOut)
    (visited recStack : List String) : List String → DfsOut
  | [] => .ok visited recStack false
  | d :: ds =>
    if d = "" then dfsLoop tasks next visited recStack ds
    else
      match find_task tasks d with
      | none => .crash
      | some dt =>
        if d ∉ visited then
          match next visited recStack dt with
          | .ok v r true => .ok v r true
          | .ok v r false => dfsLoop tasks next v r ds
          | .crash => .crash
          | .outOfFuel => .outOfFuel
        else if d ∈ recStack then .ok visited recStack true
        else dfsLoop tasks next visited recStack ds

/-- `dfs` (lines 80-92): mark the task visited and on the recursion stack, walk its
dependency list, and on normal completion pop the task off the recursion stack. -/
def dfs (tasks : List Task) : Nat → List String → List String → Task → DfsOut
  | 0, _, _, _ => .outOfFuel
  | f + 1, visited, recStack, t =>
    match dfsLoop tasks (fun v r u => dfs tasks f v r u) (setAdd visited t.name)
        (setAdd recStack t.name) t.dependencies with
    | .ok v r false => .ok v (setRemove r t.name) false
    | out => out

/-- Result of `detect_cycles` (lines 76-98). -/
inductive DetectRes where
  | cycleFound
  | noCycle
  | crash
  | outOfFuel
deriving DecidableEq

/-- The root loop of `detect_cycles` (lines 94-98), threading the `visited` and
`rec_stack` sets across roots exactly as the shared Python sets are. -/
def detectFrom (tasks : List Task) (visited recStack : List String) :
    List Task → DetectRes
  | [] => .noCycle
  | t :: ts =>
    if t.name ∈ visited then detectFrom tasks visited recStack ts
    else
      match dfs tasks (tasks.length + 1) visited recStack t with
      | .ok _ _ true => .cycleFound
      | .ok v r false => detectFrom tasks v r ts
      | .crash => .crash
      | .outOfFuel => .outOfFuel

def detect_cycles (tasks : List Task) : DetectRes := detectFrom tasks [] [] tasks

/-- The `max_dep_finish` accumulation of lines 105-108: fold `max` over the recorded
finish times of the nonempty dependencies; `none` models the KeyError raised when a
dependency has no entry in `finish_times` yet. -/
def maxDepFinish (ft : List (String × Nat)) (acc : Nat) : List String → Option Nat
  | [] => some acc
  | d :: ds =>
    if d = "" then maxDepFinish ft acc ds
    else
      match ft.lookup d with
      | none => none
      | some v => maxDepFinish ft (max acc v) ds

/-- The main loop of `calculate_expected_runtime` (lines 104-110), threading the
`finish_times` dict (`start_times` is written but never read, so it is omitted). -/
def calcLoop (ft : List (String × Nat)) : List Task → Option (List (String × Nat))
  | [] => some ft
  | t :: ts =>
    match maxDepFinish ft 0 t.dependencies with
    | none => none
    | some m => calcLoop (dictUpd ft t.name (m + t.duration)) ts

/-- `max(finish_times.values()) if finish_times else 0` (line 111). -/
def maxValues : List (String × Nat) → Nat
  | [] => 0
  | p :: ps => ps.foldl (fun a q => max a q.2) p.2

/-- `calculate_expected_runtime` (lines 101-111); `none` is the unhandled KeyError. -/
def calculate_expected_runtime (tasks : List Task) : Option Nat :=
  (calcLoop [] tasks).map maxValues

/-- `build_command` (lines 113-125); `none` models the KeyError raised by a
missing required parameter (the `.get("tool")` access on line 118 cannot raise). -/
def build_command (t : Task) : Option String :=
  if t.task_type == "resolve" then
    match t.parameters.lookup "fqdn" with
    | none => none
    | some fqdn => some ("dig +short " ++ fqdn)
  else if t.task_type == "traceroute" then
    if t.parameters.lookup "tool" == some "mtr" then
      match t.parameters.lookup "count", t.parameters.lookup "endpoint" with
      | some c, some e => some ("mtr -nz -c " ++ c ++ " " ++ e ++ " --report")
      | _, _ => none
    else
      match t.parameters.lookup "count", t.parameters.lookup "endpoint" with
      | some c, some e => some ("traceroute -q " ++ c ++ " " ++ e)
      | _, _ => none
  else if t.task_type == "iperf3" then
    match t.parameters.lookup "endpoint", t.parameters.lookup "port",
        t.parameters.lookup "duration" with
    | some e, some p, some d => some ("iperf3 -c " ++ e ++ " -p " ++ p ++ " -t " ++ d)
    | _, _, _ => none
  else some ""

/-- What the `subprocess.run` call of line 133 did, abstracted as an oracle: it
either completed with an exit status and captured streams, exceeded the
`duration + 10` timeout, or raised some other exception. -/
inductive ProcOutcome where
  | completed (returncode : Int) (stdout stderr : String)
  | timedOut
  | raised (msg : String)
deriving DecidableEq

/-- Python `str.strip` whitespace class (CPython `Py_UNICODE_ISSPACE`, i.e. the
`str.isspace` characters): U+0009-U+000D, U+001C-U+0020, NEL U+0085, NBSP U+00A0,
Ogham space mark U+1680, the space separators U+2000-U+200A, line and paragraph
separators U+2028/U+2029, narrow no-break space U+202F, medium mathematical space
U+205F, and ideographic space U+3000. -/
def pyWS (c : Char) : Bool :=
  (decide (9 ≤ c.toNat) && decide (c.toNat ≤ 13)) ||
  (decide (28 ≤ c.toNat) && decide (c.toNat ≤ 32)) ||
  c.toNat == 133 || c.toNat == 160 || c.toNat == 5760 ||
  (decide (8192 ≤ c.toNat) && decide (c.toNat ≤ 8202)) ||
  c.toNat == 8232 || c.toNat == 8233 || c.toNat == 8239 || c.toNat == 8287 ||
  c.toNat == 12288

/-- `not output.strip()` (line 138): every character is whitespace. -/
def blank (s : String) : Bool := s.toList.all pyWS

/-- `execute_task` (lines 128-148), with the subprocess behaviour and the measured
elapsed time supplied as oracles. `build_command` runs before the `try` block, so a
`none` from it is an exception escaping `execute_task`, modelled as a `none` result;
everything inside the `try` collapses into a returned triple. -/
def execute_task (po : ProcOutcome) (elapsed : Nat) (t : Task) :
    Option (Bool × String × Nat) :=
  match build_command t with
  | none => none
  | some _ =>
    match po with
    | .completed rc out err =>
      let output := if rc == 0 then out else err
      let success := rc == 0
      if t.task_type == "resolve" && success && blank output then
        some (false, "No DNS records found", elapsed)
      else some (success, output, elapsed)
    | .timedOut => some (false, "Task " ++ t.name ++ " timed out", elapsed)
    | .raised m => some (false, "Task " ++ t.name ++ " error: " ++ m, elapsed)

/-- Observable scheduler events, modelling the prints of lines 190, 201 and 209 as
an ordered event stream. -/
inductive Event where
  | start (name : String)
  | finish (name : String) (success : Bool) (output : String)
  | skip (name : String) (cause : String)
deriving DecidableEq

/-- Scheduler-internal state of `run_mode` (lines 175-179): the `completed` and
`running` name sets and the `outputs` dict, plus the event trace. -/
structure SchedState where
  completed : List String
  running : List String
  outputs : List (String × String)
  trace : List Event
deriving DecidableEq

def initState : SchedState := ⟨[], [], [], []⟩

/-- Lines 186-187: a task may start when it is neither completed nor running and
every nonempty dependency is in `completed`. -/
def readyB (completed running : List String) (t : Task) : Bool :=
  !(completed.contains t.name) && !(running.contains t.name) &&
    t.dependencies.all (fun d => d == "" || completed.contains d)

/-- Lines 185-191: one readiness scan over the task list in input order, starting
every ready task. -/
def scanStart (s : SchedState) : List Task → SchedState
  | [] => s
  | t :: ts =>
    if readyB s.completed s.running t then
      scanStart { s with running := setAdd s.running t.name,
                         trace := s.trace ++ [Event.start t.name] } ts
    else scanStart s ts

/-- Lines 204-209: after a failure of `name`, mark every not-yet-terminal direct
dependent as skipped (mutating `completed`/`outputs` as the Python loop does). -/
def cascade (name : String) (s : SchedState) : List Task → SchedState
  | [] => s
  | t :: ts =>
    if t.dependencies.contains name && !(s.completed.contains t.name) then
      cascade name
        { s with completed := setAdd s.completed t.name,
                 outputs := dictUpd s.outputs t.name
                   ("Skipped due to failure in " ++ name),
                 trace := s.trace ++ [Event.skip t.name name] } ts
    else cascade name s ts

/-- Lines 195-209: retire one finished future, record its outcome, and on failure
run the skip cascade. The `exec` oracle gives the (success, output) pair the
execution produced. -/
def finishOne (tasks : List Task) (exec : String → Bool × String) (s : SchedState)
    (name : String) : SchedState :=
  if s.running.contains name then
    let r := exec name
    let s1 : SchedState :=
      { completed := setAdd s.completed name,
        running := setRemove s.running name,
        outputs := dictUpd s.outputs name r.2,
        trace := s.trace ++ [Event.finish name r.1 r.2] }
    if r.1 then s1 else cascade name s1 tasks
  else s

/-- One iteration of the `while` loop (lines 184-209): the readiness scan followed
by the completion scan over the batch of futures the poll found done. -/
def loopIter (tasks : List Task) (exec : String → Bool × String) (s : SchedState)
    (done : List String) : SchedState :=
  done.foldl (finishOne tasks exec) (scanStart s tasks)

/-- All states the dispatch loop can reach after any number of iterations, for any
schedule of future completions. -/
def schedExec (tasks : List Task) (exec : String → Bool × String)
    (batches : List (List String)) : SchedState :=
  batches.foldl (loopIter tasks exec) initState

/-- The guarded `while len(completed) < len(tasks)` loop of lines 184-209; `none`
means the supplied completion schedule ran out before the loop exited. -/
def runLoop (tasks : List Task) (exec : String → Bool × String) :
    List (List String) → SchedState → Option SchedState
  | [], s => if s.completed.length < tasks.length then none else some s
  | b :: bs, s =>
    if s.completed.length < tasks.length then
      runLoop tasks exec bs (loopIter tasks exec s b)
    else some s

/-- `run_mode` after validation (lines 182-210): drive the loop from the empty
state under a given completion schedule. -/
def run_mode (tasks : List Task) (exec : String → Bool × String)
    (batches : List (List String)) : Option SchedState :=
  runLoop tasks exec batches initState

/-- Remove the empty-string entries (stray `;` separators) from a task's
dependency list, leaving everything else unchanged. -/
def stripTask (t : Task) : Task :=
  { t with dependencies := t.dependencies.filter (fun d => !(d == "")) }

/-- A dependency chain: a nonempty list of tasks of the graph in which every task
is followed by one of the tasks its (nonempty) dependency entries name. -/
inductive DepChain (tasks : List Task) : List Task → Prop where
  | single (t : Task) (ht : t ∈ tasks) : DepChain tasks [t]
  | cons (t u : Task) (rest : List Task) (ht : t ∈ tasks) (hd : u.name ∈ t.dependencies)
      (hne : u.name ≠ "") (hc : DepChain tasks (u :: rest)) :
      DepChain tasks (t :: u :: rest)

/-- Total declared duration along a chain. -/
def chainSum (c : List Task) : Nat := (c.map Task.duration).sum

/-- The input order is a dependency order: every nonempty dependency of each task
names one of the tasks listed before it (`seen` holds the earlier names). -/
def topoOKb (seen : List String) : List Task → Bool
  | [] => true
  | t :: ts =>
    t.dependencies.all (fun d => d == "" || seen.contains d) && topoOKb (t.name :: seen) ts

/-- `w` is the length of the longest dependency chain starting at `t`. -/
def BestFrom (tasks : List Task) (t : Task) (w : Nat) : Prop :=
  (∀ c, DepChain tasks c → c.head? = some t → chainSum c ≤ w) ∧
  (∃ c, DepChain tasks c ∧ c.head? = some t ∧ chainSum c = w)

/-- `r` bounds every dependency chain of the graph and (on a nonempty graph) is
attained by one: the claim's "longest sum of durations along any dependency
chain", with `r = 0` for the empty graph. -/
def IsMakespanOf (tasks : List Task) (r : Nat) : Prop :=
  (∀ c, DepChain tasks c → chainSum c ≤ r) ∧
  ((tasks = [] ∧ r = 0) ∨ ∃ c, DepChain tasks c ∧ chainSum c = r)

/-- A `resolve` task with no `fqdn` parameter. `parse_input` accepts such a task
(the line `A,5,,resolve,` has an empty parameter field), so it can reach
`execute_task` in run mode. -/
def noFqdnTask : Task := ⟨"A", 5, [], "resolve", []⟩

/-- The dependency relation of the graph, as the code traverses it: the task named
`a` lists `b` as a nonempty dependency entry. -/
def Edge (tasks : List Task) (a b : String) : Prop :=
  ∃ t ∈ tasks, t.name = a ∧ b ∈ t.dependencies ∧ b ≠ ""

/-- The dependency relation contains a (directed) cycle. -/
def HasCycle (tasks : List Task) : Prop :=
  ∃ n, Relation.TransGen (Edge tasks) n n

/-- Some task has a nonempty dependency entry that names no task of the graph. -/
def hasDanglingB (tasks : List Task) : Bool :=
  tasks.any (fun t => t.dependencies.any (fun d => !(d == "") && !((namesOf tasks).contains d)))

/-- Well-formed task collection, as `parse_input` guarantees: names are unique and
nonempty. -/
def WFNames (tasks : List Task) : Prop :=
  (namesOf tasks).Nodup ∧ ∀ t ∈ tasks, t.name ≠ ""

/-- Overall validation verdict of `validate_mode`/`run_mode` before scheduling. -/
inductive Verdict where
  | rejected (msg : String)
  | accepted
  | crashed
  | outOfFuel
deriving DecidableEq

/-- Lines 151-159 / 164-172: the dependency-existence check (inside `parse_input`)
runs to completion first; only when it passes does `detect_cycles` run. -/
def validateTasks (tasks : List Task) : Verdict :=
  match checkDeps tasks with
  | some m => .rejected m
  | none =>
    match detect_cycles tasks with
    | .cycleFound => .rejected "Dependency cycle detected"
    | .noCycle => .accepted
    | .crash => .crashed
    | .outOfFuel => .outOfFuel

/-- Counterexample graph for C1: acyclic, but the dependent `A` is listed before
its dependency `B`. -/
def cexA : Task := ⟨"A", 5, ["B"], "resolve", []⟩

def cexB : Task := ⟨"B", 3, [], "resolve", []⟩

/-- The spec's worked example: A(5) then B(3) after A, then C(2) after B; the
expected makespan is 10. -/
def exChain : List Task :=
  [⟨"A", 5, [], "resolve", []⟩, ⟨"B", 3, ["A"], "resolve", []⟩,
   ⟨"C", 2, ["B"], "resolve", []⟩]

/-- A name is closed for the DFS when it is fully explored: visited and off the
recursion stack. -/
def ClosedIn (visited recStack : List String) (v : String) : Prop :=
  v ∈ visited ∧ v ∉ recStack

/-- The inductive invariant of the cycle-detection DFS: the visited set stays
inside the graph, the recursion stack inside the visited set, and closed names
reach only closed names and lie on no cycle. -/
structure GInv (tasks : List Task) (visited recStack : List String) : Prop where
  sub_names : ∀ v ∈ visited, v ∈ namesOf tasks
  stack_sub : ∀ v ∈ recStack, v ∈ visited
  closed_reach : ∀ v, ClosedIn visited recStack v →
    ∀ w, Relation.ReflTransGen (Edge tasks) v w → ClosedIn visited recStack w
  closed_acyc : ∀ v, ClosedIn visited recStack v → ¬ Relation.TransGen (Edge tasks) v v

/-- Number of tasks whose name the DFS has not visited yet: the termination
measure of the fuelled embedding. -/
def unvisCount (tasks : List Task) (visited : List String) : Nat :=
  (tasks.filter (fun t => !(visited.contains t.name))).length

/-- A graph with a dangling dependency reference. -/
def exDangling : List Task := [⟨"A", 1, ["Z"], "resolve", []⟩]

/-- A 2-node mutual dependency. -/
def exTwoCycle : List Task :=
  [⟨"A", 1, ["B"], "resolve", []⟩, ⟨"B", 1, ["A"], "resolve", []⟩]

/-- A self-dependency. -/
def exSelfDep : List Task := [⟨"A", 1, ["A"], "resolve", []⟩]

/-- A valid DAG with two disconnected components. -/
def exDag : List Task :=
  [⟨"D1", 1, [], "resolve", []⟩, ⟨"D2", 2, ["D1"], "resolve", []⟩,
   ⟨"E1", 3, [], "resolve", []⟩]

/-- Does this event record a start of task `n`? -/
def isStartEvt (n : String) : Event → Bool
  | .start m => m == n
  | _ => false

/-- Does this event record a transition of task `n` into a terminal state
(finished or skipped)? -/
def isTermEvt (n : String) : Event → Bool
  | .finish m _ _ => m == n
  | .skip m _ => m == n
  | _ => false

/-- Number of start events for `n` in a trace. -/
def startCount (tr : List Event) (n : String) : Nat := tr.countP (isStartEvt n)

/-- Number of terminal transitions for `n` in a trace. -/
def termCount (tr : List Event) (n : String) : Nat := tr.countP (isTermEvt n)

def startIn (tr : List Event) (n : String) : Prop := ∃ e ∈ tr, isStartEvt n e = true

def termIn (tr : List Event) (n : String) : Prop := ∃ e ∈ tr, isTermEvt n e = true

def finishedIn (tr : List Event) (n : String) : Prop := ∃ b o, Event.finish n b o ∈ tr

def failedIn (tr : List Event) (n : String) : Prop := ∃ o, Event.finish n false o ∈ tr

/-- C2's temporal property: whenever a task starts, every one of its nonempty
dependencies already has a terminal transition strictly earlier in the trace. -/
def StartsAfterDeps (tasks : List Task) (tr : List Event) : Prop :=
  ∀ pre n post, tr = pre ++ Event.start n :: post →
    ∀ t ∈ tasks, t.name = n → ∀ d ∈ t.dependencies, d ≠ "" → termIn pre d

/-- No task starts after it has already reached a terminal state. -/
def NoStartAfterTerm (tr : List Event) : Prop :=
  ∀ pre n post, tr = pre ++ Event.start n :: post → ¬ termIn pre n

/-- A state the dispatch loop can reach from the initial state under some
schedule of future completions. -/
def Reachable (tasks : List Task) (exec : String → Bool × String)
    (s : SchedState) : Prop :=
  ∃ batches, schedExec tasks exec batches = s

/-- The inductive invariant of the dispatch loop. -/
structure Inv (tasks : List Task) (s : SchedState) : Prop where
  ct : ∀ n, n ∈ s.completed ↔ termIn s.trace n
  rs : ∀ n ∈ s.running, startIn s.trace n
  rc : ∀ n ∈ s.running, n ∉ s.completed
  csub : ∀ n ∈ s.completed, n ∈ namesOf tasks
  rsub : ∀ n ∈ s.running, n ∈ namesOf tasks
  cnd : s.completed.Nodup
  startLoc : ∀ n, startIn s.trace n → n ∈ s.running ∨ n ∈ s.completed
  startOnce : ∀ n, startCount s.trace n ≤ 1
  termOnce : ∀ n, termCount s.trace n ≤ 1
  sad : StartsAfterDeps tasks s.trace
  nst : NoStartAfterTerm s.trace
  runDeps : ∀ t ∈ tasks, t.name ∈ s.running →
    ∀ d ∈ t.dependencies, d ≠ "" → d ∈ s.completed
  skipCause : ∀ n c, Event.skip n c ∈ s.trace →
    (∃ t ∈ tasks, t.name = n ∧ c ∈ t.dependencies ∧ c ≠ "") ∧ failedIn s.trace c
  skipOut : ∀ n c, Event.skip n c ∈ s.trace →
    (n, "Skipped due to failure in " ++ c) ∈ s.outputs
  outDom : ∀ n, (∃ o, (n, o) ∈ s.outputs) ↔ n ∈ s.completed

/-- Oracle for witnesses: every execution succeeds. -/
def execOk : String → Bool × String := fun _ => (true, "ok")

/-- Oracle for witnesses: task A fails, everything else succeeds. -/
def execFailA : String → Bool × String := fun n =>
  if n == "A" then (false, "boom") else (true, "ok")

/-- Final state of the worked example under the all-success oracle with one task
retired per poll. -/
def exChainFinal : SchedState :=
  SchedState.mk ["C", "B", "A"] []
    [("A", "ok"), ("B", "ok"), ("C", "ok")]
    [Event.start "A", Event.finish "A" true "ok", Event.start "B",
     Event.finish "B" true "ok", Event.start "C", Event.finish "C" true "ok"]

/-- Reachable state of the worked example under the failing-A oracle: A has been
submitted and is still running. -/
def exFailMid : SchedState := schedExec exChain execFailA [[]]

/-- Reachable state of the worked example under the failing-A oracle after A
failed: B is skipped, C is still pending with its one dependency terminal. -/
def exSkipMid : SchedState := schedExec exChain execFailA [[], ["A"]]

/-! ## Theorems -/

/-! ### Claims C8 and C9: `execute_task` -/

/-- C8: counterexample. For `noFqdnTask`, `build_command` raises `KeyError` on line
116 before the `try` block of `execute_task` begins, so no `(success, output,
elapsed)` triple is returned: the exception escapes to the caller (modelled as
`none`), refuting the claim that every failure mode collapses into a triple for
every task. -/
theorem c8_counterexample :
    execute_task (ProcOutcome.completed 0 "out" "") 1 noFqdnTask = none := by
  rfl

/-- C8 (amended): for every task whose command construction succeeds (all
parameters required by its kind are present), `execute_task` never lets a fault
escape: whatever the subprocess did, a triple is returned, and each failure mode
(timeout, raised exception, non-zero exit status) collapses into
`(false, message, elapsed)`. -/
theorem c8_execute_total (t : Task) (po : ProcOutcome) (e : Nat)
    (h : (build_command t).isSome = true) :
    (∃ s o, execute_task po e t = some (s, o, e)) ∧
    (po = .timedOut →
      execute_task po e t = some (false, "Task " ++ t.name ++ " timed out", e)) ∧
    (∀ m, po = .raised m →
      execute_task po e t = some (false, "Task " ++ t.name ++ " error: " ++ m, e)) ∧
    (∀ rc out err, po = .completed rc out err → rc ≠ 0 →
      execute_task po e t = some (false, err, e)) := by
  obtain ⟨cmd, hcmd⟩ := Option.isSome_iff_exists.mp h
  refine ⟨?_, ?_, ?_, ?_⟩
  · cases po with
    | completed rc out err =>
      simp only [execute_task, hcmd]
      split <;> (try split) <;> exact ⟨_, _, rfl⟩
    | timedOut => exact ⟨false, "Task " ++ t.name ++ " timed out", by simp [execute_task, hcmd]⟩
    | raised m => exact ⟨false, "Task " ++ t.name ++ " error: " ++ m, by simp [execute_task, hcmd]⟩
  · rintro rfl; simp [execute_task, hcmd]
  · rintro m rfl; simp [execute_task, hcmd]
  · rintro rc out err rfl hrc
    have hbe : (rc == 0) = false := by simpa using hrc
    simp [execute_task, hcmd, hbe]

/-- C8 witness: a well-formed `resolve` task, on a timeout, gets the synthesized
timed-out failure triple rather than an escaping exception. -/
theorem c8_execute_total_witness :
    (build_command ⟨"W", 5, [], "resolve", [("fqdn", "x.com")]⟩).isSome = true ∧
    execute_task ProcOutcome.timedOut 3 ⟨"W", 5, [], "resolve", [("fqdn", "x.com")]⟩ =
      some (false, "Task W timed out", 3) :=
  ⟨by rfl,
   (c8_execute_total ⟨"W", 5, [], "resolve", [("fqdn", "x.com")]⟩ ProcOutcome.timedOut 3
      (by rfl)).2.1 rfl⟩

/-- C9: the empty-output-is-failure rule of lines 138-140. A `resolve` task with a
zero exit status and whitespace-only captured output is recorded as a failure with
the synthesized "No DNS records found" message; a `resolve` task with nonblank
output, or a non-zero exit, gets the raw outcome; and for every other task kind the
raw `(returncode == 0, output)` mapping applies with no blankness test at all. -/
theorem c9_resolve_empty_only (t : Task) (e : Nat) (rc : Int) (out err : String)
    (h : (build_command t).isSome = true) :
    (t.task_type = "resolve" → rc = 0 → blank out = true →
      execute_task (.completed rc out err) e t = some (false, "No DNS records found", e)) ∧
    (t.task_type = "resolve" → rc = 0 → blank out = false →
      execute_task (.completed rc out err) e t = some (true, out, e)) ∧
    (rc ≠ 0 → execute_task (.completed rc out err) e t = some (false, err, e)) ∧
    (t.task_type ≠ "resolve" →
      execute_task (.completed rc out err) e t =
        some ((rc == 0), (if rc == 0 then out else err), e)) := by
  obtain ⟨cmd, hcmd⟩ := Option.isSome_iff_exists.mp h
  refine ⟨?_, ?_, ?_, ?_⟩
  · rintro hty rfl hblank
    simp [execute_task, hcmd, hty, hblank]
  · rintro hty rfl hblank
    simp [execute_task, hcmd, hty, hblank]
  · intro hrc
    have hbe : (rc == 0) = false := by simpa using hrc
    simp [execute_task, hcmd, hbe]
  · intro hty
    have hbe : (t.task_type == "resolve") = false := by simpa using hty
    simp [execute_task, hcmd, hbe]

/-- C9 witness: a zero-exit, whitespace-only result for a `resolve` task —
including non-ASCII whitespace such as NBSP and the ideographic space, which
Python `str.strip` also removes — is turned into the synthesized failure. -/
theorem c9_resolve_empty_only_witness :
    (build_command ⟨"W", 5, [], "resolve", [("fqdn", "x.com")]⟩).isSome = true ∧
    execute_task (ProcOutcome.completed 0 " \u00A0\u3000" "") 2
        ⟨"W", 5, [], "resolve", [("fqdn", "x.com")]⟩ =
      some (false, "No DNS records found", 2) :=
  ⟨by rfl,
   (c9_resolve_empty_only ⟨"W", 5, [], "resolve", [("fqdn", "x.com")]⟩ 2 0
      " \u00A0\u3000" "" (by rfl)).1 rfl rfl (by rfl)⟩

/-! ### Claim C10: empty-string dependency entries are ignored uniformly -/

theorem stripTask_name (t : Task) : (stripTask t).name = t.name := rfl

theorem namesOf_map_strip (tasks : List Task) :
    namesOf (tasks.map stripTask) = namesOf tasks := by
  simp only [namesOf, List.map_map]
  exact List.map_congr_left fun a _ => rfl

theorem depScan_strip (n : String) (names : List String) (ds : List String) :
    depScan n names (ds.filter (fun d => !(d == ""))) = depScan n names ds := by
  induction ds with
  | nil => rfl
  | cons d ds ih =>
    by_cases hd : d = ""
    · subst hd
      simp [depScan, ih]
    · have hb : (d == "") = false := by simpa using hd
      simp only [List.filter_cons, hb, Bool.not_false, if_pos, depScan]
      by_cases hmem : d ∈ names
      · simp [hd, hmem, ih]
      · simp [hd, hmem]

theorem checkDeps_strip (tasks : List Task) :
    checkDeps (tasks.map stripTask) = checkDeps tasks := by
  unfold checkDeps
  rw [namesOf_map_strip]
  generalize namesOf tasks = names
  induction tasks with
  | nil => rfl
  | cons t ts ih =>
    simp only [List.map_cons, checkDepsAux, stripTask_name]
    rw [show (stripTask t).dependencies = t.dependencies.filter (fun d => !(d == "")) from rfl,
      depScan_strip]
    cases depScan t.name names t.dependencies with
    | none => exact ih
    | some m => rfl

theorem find_task_strip (tasks : List Task) (d : String) :
    find_task (tasks.map stripTask) d = (find_task tasks d).map stripTask := by
  unfold find_task
  induction tasks with
  | nil => rfl
  | cons t ts ih =>
    simp only [List.map_cons, List.find?_cons, stripTask_name]
    cases h : (t.name == d) with
    | true => rfl
    | false => exact ih

theorem dfsLoop_strip (tasks : List Task)
    (nextS nextO : List String → List String → Task → DfsOut)
    (hnext : ∀ v r u, nextS v r (stripTask u) = nextO v r u)
    (visited recStack : List String) (ds : List String) :
    dfsLoop (tasks.map stripTask) nextS visited recStack
        (ds.filter (fun d => !(d == ""))) =
      dfsLoop tasks nextO visited recStack ds := by
  induction ds generalizing visited recStack with
  | nil => rfl
  | cons d ds ih =>
    by_cases hd : d = ""
    · subst hd; simpa [dfsLoop] using ih _ _
    · have hb : (d == "") = false := by simpa using hd
      have hfc : ((d :: ds).filter (fun x => !(x == ""))) =
          d :: ds.filter (fun x => !(x == "")) := by
        simp [List.filter_cons, hb]
      rw [hfc]
      cases hft : find_task tasks d with
      | none => simp [dfsLoop, hd, find_task_strip, hft]
      | some dt =>
        by_cases hv : d ∈ visited
        · by_cases hr : d ∈ recStack
          · simp [dfsLoop, hd, find_task_strip, hft, hv, hr]
          · simp [dfsLoop, hd, find_task_strip, hft, hv, hr, ih]
        · have l1 : dfsLoop (tasks.map stripTask) nextS visited recStack
              (d :: ds.filter (fun x => !(x == ""))) =
              match nextS visited recStack (stripTask dt) with
              | .ok v r true => .ok v r true
              | .ok v r false => dfsLoop (tasks.map stripTask) nextS v r
                  (ds.filter (fun x => !(x == "")))
              | .crash => .crash
              | .outOfFuel => .outOfFuel := by
            simp [dfsLoop, hd, find_task_strip, hft, hv]
          have l2 : dfsLoop tasks nextO visited recStack (d :: ds) =
              match nextO visited recStack dt with
              | .ok v r true => .ok v r true
              | .ok v r false => dfsLoop tasks nextO v r ds
              | .crash => .crash
              | .outOfFuel => .outOfFuel := by
            simp [dfsLoop, hd, hft, hv]
          rw [l1, l2, hnext]
          cases nextO visited recStack dt with
          | ok v r c =>
            cases c with
            | false => exact ih _ _
            | true => rfl
          | crash => rfl
          | outOfFuel => rfl

theorem dfs_strip (tasks : List Task) (fuel : Nat) :
    ∀ visited recStack t,
      dfs (tasks.map stripTask) fuel visited recStack (stripTask t) =
        dfs tasks fuel visited recStack t := by
  induction fuel with
  | zero => intro visited recStack t; rfl
  | succ f ihf =>
    intro visited recStack t
    show (match dfsLoop (tasks.map stripTask) (fun v r u => dfs (tasks.map stripTask) f v r u)
        (setAdd visited (stripTask t).name) (setAdd recStack (stripTask t).name)
        (stripTask t).dependencies with
      | DfsOut.ok v r false => DfsOut.ok v (setRemove r (stripTask t).name) false
      | out => out) =
      (match dfsLoop tasks (fun v r u => dfs tasks f v r u) (setAdd visited t.name)
          (setAdd recStack t.name) t.dependencies with
        | DfsOut.ok v r false => DfsOut.ok v (setRemove r t.name) false
        | out => out)
    rw [stripTask_name,
      show (stripTask t).dependencies = t.dependencies.filter (fun d => !(d == ""))
        from rfl,
      dfsLoop_strip tasks _ _ ihf]

theorem detectFrom_strip (tasks : List Task) (visited recStack : List String)
    (roots : List Task) :
    detectFrom (tasks.map stripTask) visited recStack (roots.map stripTask) =
      detectFrom tasks visited recStack roots := by
  induction roots generalizing visited recStack with
  | nil => rfl
  | cons t ts ih =>
    simp only [List.map_cons, detectFrom, stripTask_name]
    by_cases hv : t.name ∈ visited
    · simp [hv, ih]
    · simp only [hv, if_neg, ite_false]
      rw [show (tasks.map stripTask).length = tasks.length from List.length_map .. ,
        dfs_strip tasks (tasks.length + 1) visited recStack t]
      cases dfs tasks (tasks.length + 1) visited recStack t with
      | ok v r c => cases c <;> simp [ih]
      | crash => rfl
      | outOfFuel => rfl

theorem detect_cycles_strip (tasks : List Task) :
    detect_cycles (tasks.map stripTask) = detect_cycles tasks := by
  unfold detect_cycles
  exact detectFrom_strip tasks [] [] tasks

theorem maxDepFinish_strip (ft : List (String × Nat)) (acc : Nat) (ds : List String) :
    maxDepFinish ft acc (ds.filter (fun d => !(d == ""))) = maxDepFinish ft acc ds := by
  induction ds generalizing acc with
  | nil => rfl
  | cons d ds ih =>
    by_cases hd : d = ""
    · subst hd; simpa [maxDepFinish] using ih acc
    · have hb : (d == "") = false := by simpa using hd
      have hfc : ((d :: ds).filter (fun x => !(x == ""))) =
          d :: ds.filter (fun x => !(x == "")) := by
        simp [List.filter_cons, hb]
      rw [hfc]
      cases hlk : ft.lookup d with
      | none => simp [maxDepFinish, hd, hlk]
      | some v => simp [maxDepFinish, hd, hlk, ih]

theorem calcLoop_strip (ft : List (String × Nat)) (tasks : List Task) :
    calcLoop ft (tasks.map stripTask) = calcLoop ft tasks := by
  induction tasks generalizing ft with
  | nil => rfl
  | cons t ts ih =>
    simp only [List.map_cons, calcLoop, stripTask_name]
    rw [show (stripTask t).dependencies = t.dependencies.filter (fun d => !(d == ""))
      from rfl, maxDepFinish_strip]
    cases maxDepFinish ft 0 t.dependencies with
    | none => rfl
    | some m => exact ih _

theorem calc_strip (tasks : List Task) :
    calculate_expected_runtime (tasks.map stripTask) = calculate_expected_runtime tasks := by
  unfold calculate_expected_runtime
  rw [calcLoop_strip]

theorem all_filter_empty (completed : List String) (ds : List String) :
    ((ds.filter (fun d => !(d == ""))).all (fun d => d == "" || completed.contains d)) =
      ds.all (fun d => d == "" || completed.contains d) := by
  induction ds with
  | nil => rfl
  | cons d ds ih =>
    by_cases hd : d = ""
    · subst hd; simpa using ih
    · have hb : (d == "") = false := by simpa using hd
      simp only [List.filter_cons, hb, Bool.not_false, if_pos, List.all_cons, ih, hb,
        Bool.false_or]

theorem readyB_strip (completed running : List String) (t : Task) :
    readyB completed running (stripTask t) = readyB completed running t := by
  unfold readyB
  rw [stripTask_name,
    show (stripTask t).dependencies = t.dependencies.filter (fun d => !(d == "")) from rfl,
    all_filter_empty]

theorem scanStart_strip (s : SchedState) (tasks : List Task) :
    scanStart s (tasks.map stripTask) = scanStart s tasks := by
  induction tasks generalizing s with
  | nil => rfl
  | cons t ts ih =>
    simp only [List.map_cons, scanStart, readyB_strip, stripTask_name]
    by_cases h : readyB s.completed s.running t = true
    · simp [h, ih]
    · simp only [h] at *
      simp [h, ih]

/-- C10: empty-string dependency entries are ignored uniformly. Filtering the
empty strings out of every task's dependency list changes nothing in the
dependency-existence check, the cycle-detection DFS, the expected-runtime
computation, or the scheduler's readiness scan; in particular a task whose
dependency entries are all empty strings behaves exactly as a dependency-free
task in all four. -/
theorem c10_empty_deps_ignored (tasks : List Task) :
    checkDeps (tasks.map stripTask) = checkDeps tasks ∧
    detect_cycles (tasks.map stripTask) = detect_cycles tasks ∧
    calculate_expected_runtime (tasks.map stripTask) = calculate_expected_runtime tasks ∧
    ∀ s : SchedState, scanStart s (tasks.map stripTask) = scanStart s tasks :=
  ⟨checkDeps_strip tasks, detect_cycles_strip tasks, calc_strip tasks,
   fun s => scanStart_strip s tasks⟩

/-! ### Claim C1: the expected runtime is the longest dependency chain -/

theorem DepChain.ne_nil {tasks : List Task} {c : List Task} (h : DepChain tasks c) :
    c ≠ [] := by
  cases h <;> simp

theorem DepChain.head_mem {tasks : List Task} {c : List Task} (h : DepChain tasks c)
    {t : Task} (hh : c.head? = some t) : t ∈ tasks := by
  cases h with
  | single u hu => simp at hh; subst hh; exact hu
  | cons u v rest hu hd hne hc => simp at hh; subst hh; exact hu

theorem DepChain.of_subset {tasks tasks2 : List Task} {c : List Task}
    (hsub : ∀ x ∈ tasks, x ∈ tasks2) (h : DepChain tasks c) : DepChain tasks2 c := by
  induction h with
  | single t ht => exact .single t (hsub t ht)
  | cons t u rest ht hd hne hc ih => exact .cons t u rest (hsub t ht) hd hne ih

theorem chainSum_cons (t : Task) (c : List Task) :
    chainSum (t :: c) = t.duration + chainSum c := by
  simp [chainSum]

/-- Chains inside `pre ++ [t0]` whose head lies in `pre` stay inside `pre`,
provided the dependencies of `pre` all resolve within `pre` and `t0` is a new
name. -/
theorem chain_restrict {pre : List Task} {t0 : Task}
    (hclosed : ∀ v ∈ pre, ∀ d ∈ v.dependencies, d ≠ "" → d ∈ namesOf pre)
    (hnew : t0.name ∉ namesOf pre) {c : List Task}
    (h : DepChain (pre ++ [t0]) c) {hd : Task} (hh : c.head? = some hd)
    (hmem : hd ∈ pre) : DepChain pre c := by
  induction h generalizing hd with
  | single t ht =>
    simp at hh; subst hh
    exact .single _ hmem
  | cons t u rest ht hdep hne hc ih =>
    simp at hh; subst hh
    have humem : u ∈ pre ++ [t0] := hc.head_mem (by simp)
    have hun : u.name ∈ namesOf pre := hclosed _ hmem _ hdep hne
    have hu_pre : u ∈ pre := by
      rcases List.mem_append.mp humem with h1 | h1
      · exact h1
      · exfalso
        simp at h1
        subst h1
        exact hnew hun
    exact .cons t u rest hmem hdep hne (ih (by simp) hu_pre)

theorem lookup_mem {α : Type} {l : List (String × α)} {k : String} {v : α}
    (h : l.lookup k = some v) : (k, v) ∈ l := by
  induction l with
  | nil => simp [List.lookup] at h
  | cons p ps ih =>
    rw [List.lookup] at h
    by_cases he : k = p.1
    · have : (k == p.1) = true := by simpa using he
      rw [this] at h
      simp at h
      subst h; subst he
      simp
    · have : (k == p.1) = false := by simpa using he
      rw [this] at h
      exact List.mem_cons_of_mem _ (ih h)

theorem lookup_eq_none {α : Type} {l : List (String × α)} {k : String}
    (h : k ∉ l.map Prod.fst) : l.lookup k = none := by
  induction l with
  | nil => rfl
  | cons p ps ih =>
    simp only [List.map_cons, List.mem_cons, not_or] at h
    rw [List.lookup]
    have : (k == p.1) = false := by simpa using h.1
    rw [this]
    exact ih h.2

theorem lookup_isSome {α : Type} {l : List (String × α)} {k : String}
    (h : k ∈ l.map Prod.fst) : ∃ v, l.lookup k = some v := by
  induction l with
  | nil => simp at h
  | cons p ps ih =>
    rw [List.lookup]
    by_cases he : k = p.1
    · have : (k == p.1) = true := by simpa using he
      rw [this]; exact ⟨p.2, rfl⟩
    · have hb : (k == p.1) = false := by simpa using he
      rw [hb]
      apply ih
      simp only [List.map_cons, List.mem_cons] at h
      rcases h with h | h
      · exact absurd h he
      · exact h

theorem lookup_append_left {α : Type} {l l2 : List (String × α)} {k : String} {v : α}
    (h : l.lookup k = some v) : (l ++ l2).lookup k = some v := by
  induction l with
  | nil => simp [List.lookup] at h
  | cons p ps ih =>
    rw [List.lookup] at h
    rw [List.cons_append, List.lookup]
    cases hb : (k == p.1) with
    | true => rw [hb] at h; exact h
    | false => rw [hb] at h; exact ih h

theorem lookup_append_right {α : Type} {l l2 : List (String × α)} {k : String}
    (h : l.lookup k = none) : (l ++ l2).lookup k = l2.lookup k := by
  induction l with
  | nil => rfl
  | cons p ps ih =>
    rw [List.lookup] at h
    rw [List.cons_append, List.lookup]
    cases hb : (k == p.1) with
    | true => rw [hb] at h; exact Option.noConfusion h
    | false => rw [hb] at h; exact ih h

/-- Writing a fresh key into the dict model is an append. -/
theorem dictUpd_fresh {α : Type} {l : List (String × α)} {k : String} (v : α)
    (h : k ∉ l.map Prod.fst) : dictUpd l k v = l ++ [(k, v)] := by
  unfold dictUpd
  rw [lookup_eq_none h]
  rfl

theorem foldl_max_le (ps : List (String × Nat)) (a : Nat) :
    a ≤ ps.foldl (fun x q => max x q.2) a ∧
    ∀ q ∈ ps, q.2 ≤ ps.foldl (fun x q => max x q.2) a := by
  induction ps generalizing a with
  | nil => exact ⟨Nat.le_refl a, by simp⟩
  | cons p ps ih =>
    refine ⟨?_, ?_⟩
    · exact le_trans (le_max_left a p.2) (ih (max a p.2)).1
    · intro q hq
      rcases List.mem_cons.mp hq with h | h
      · subst h
        exact le_trans (le_max_right a q.2) (ih (max a q.2)).1
      · exact (ih (max a p.2)).2 q h

theorem foldl_max_attained (ps : List (String × Nat)) (a : Nat) :
    ps.foldl (fun x q => max x q.2) a = a ∨
    ∃ q ∈ ps, ps.foldl (fun x q => max x q.2) a = q.2 := by
  induction ps generalizing a with
  | nil => exact Or.inl rfl
  | cons p ps ih =>
    rcases ih (max a p.2) with h | ⟨q, hq, h⟩
    · rcases Nat.le_total a p.2 with hle | hle
      · right
        exact ⟨p, by simp, by simp only [List.foldl_cons, h]; exact max_eq_right hle⟩
      · left
        simp only [List.foldl_cons, h]
        exact max_eq_left hle
    · right
      exact ⟨q, List.mem_cons_of_mem _ hq, by simpa using h⟩

theorem maxValues_ge {l : List (String × Nat)} {p : String × Nat} (hp : p ∈ l) :
    p.2 ≤ maxValues l := by
  cases l with
  | nil => simp at hp
  | cons q qs =>
    rw [show maxValues (q :: qs) = qs.foldl (fun x r => max x r.2) q.2 from rfl]
    rcases List.mem_cons.mp hp with h | h
    · subst h
      exact (foldl_max_le qs p.2).1
    · exact (foldl_max_le qs q.2).2 _ h

theorem maxValues_attained {l : List (String × Nat)} (h : l ≠ []) :
    ∃ p ∈ l, p.2 = maxValues l := by
  cases l with
  | nil => exact absurd rfl h
  | cons q qs =>
    rcases foldl_max_attained qs q.2 with h1 | ⟨p, hp, h1⟩
    · exact ⟨q, by simp, by simp [maxValues, h1]⟩
    · exact ⟨p, List.mem_cons_of_mem _ hp, by simp [maxValues, h1]⟩

/-- Characterization of the `max_dep_finish` fold: when every nonempty dependency
has a recorded finish time, the fold succeeds, dominates the accumulator and every
dependency's time, and is attained by one of them (or is the accumulator). -/
theorem maxDepFinish_spec (ft : List (String × Nat)) (ds : List String) :
    ∀ acc, (∀ d ∈ ds, d ≠ "" → ∃ v, ft.lookup d = some v) →
    ∃ m, maxDepFinish ft acc ds = some m ∧ acc ≤ m ∧
      (∀ d ∈ ds, d ≠ "" → ∀ v, ft.lookup d = some v → v ≤ m) ∧
      (m = acc ∨ ∃ d ∈ ds, d ≠ "" ∧ ft.lookup d = some m) := by
  induction ds with
  | nil =>
    intro acc _
    exact ⟨acc, rfl, Nat.le_refl _, by simp, Or.inl rfl⟩
  | cons d ds ih =>
    intro acc hlk
    by_cases hd : d = ""
    · subst hd
      obtain ⟨m, hm, hacc, hbound, hatt⟩ := ih acc (fun x hx => hlk x (List.mem_cons_of_mem _ hx))
      refine ⟨m, by simpa [maxDepFinish] using hm, hacc, ?_, ?_⟩
      · intro x hx hxne v hv
        rcases List.mem_cons.mp hx with h | h
        · exact absurd h hxne
        · exact hbound x h hxne v hv
      · rcases hatt with h | ⟨x, hx, hxne, hxv⟩
        · exact Or.inl h
        · exact Or.inr ⟨x, List.mem_cons_of_mem _ hx, hxne, hxv⟩
    · obtain ⟨v, hv⟩ := hlk d (by simp) hd
      obtain ⟨m, hm, hacc, hbound, hatt⟩ :=
        ih (max acc v) (fun x hx => hlk x (List.mem_cons_of_mem _ hx))
      refine ⟨m, ?_, le_trans (le_max_left acc v) hacc, ?_, ?_⟩
      · simpa [maxDepFinish, hd, hv] using hm
      · intro x hx hxne w hw
        rcases List.mem_cons.mp hx with h | h
        · subst h
          rw [hv] at hw
          cases hw
          exact le_trans (le_max_right acc v) hacc
        · exact hbound x h hxne w hw
      · rcases hatt with h | ⟨x, hx, hxne, hxv⟩
        · rcases Nat.le_total acc v with hle | hle
          · exact Or.inr ⟨d, by simp, hd, by rw [hv, h, max_eq_right hle]⟩
          · exact Or.inl (by rw [h, max_eq_left hle])
        · exact Or.inr ⟨x, List.mem_cons_of_mem _ hx, hxne, hxv⟩

theorem lookup_eq_of_mem_nodup {α : Type} {l : List (String × α)}
    (hnd : (l.map Prod.fst).Nodup) {k : String} {v : α} (h : (k, v) ∈ l) :
    l.lookup k = some v := by
  induction l with
  | nil => simp at h
  | cons p ps ih =>
    rw [List.lookup]
    rcases List.mem_cons.mp h with he | he
    · subst he
      simp
    · have hk : k ∈ ps.map Prod.fst := List.mem_map_of_mem Prod.fst he
      have hnd2 : (p.1 :: ps.map Prod.fst).Nodup := by simpa using hnd
      have hp1 : p.1 ∉ ps.map Prod.fst := (List.nodup_cons.mp hnd2).1
      have hne : (k == p.1) = false := by
        simp only [beq_eq_false_iff_ne, ne_eq]
        intro hkk
        subst hkk
        exact hp1 hk
      rw [hne]
      exact ih (List.nodup_cons.mp hnd2).2 he

/-- Main induction for C1: running the `calculate_expected_runtime` loop over the
remaining (dependency-ordered) tasks succeeds and records, for every task, the
longest dependency chain starting at it. -/
theorem calcLoop_spec (rest : List Task) : ∀ (pre : List Task) (seen : List String)
    (ft : List (String × Nat)),
    (namesOf (pre ++ rest)).Nodup →
    (∀ n, n ∈ seen ↔ n ∈ namesOf pre) →
    topoOKb seen rest = true →
    (∀ v ∈ pre, ∀ d ∈ v.dependencies, d ≠ "" → d ∈ namesOf pre) →
    ft.map Prod.fst = namesOf pre →
    (∀ u ∈ pre, ∃ w, ft.lookup u.name = some w ∧ BestFrom pre u w) →
    ∃ ft2, calcLoop ft rest = some ft2 ∧ ft2.map Prod.fst = namesOf (pre ++ rest) ∧
      ∀ u ∈ pre ++ rest, ∃ w, ft2.lookup u.name = some w ∧ BestFrom (pre ++ rest) u w := by
  induction rest with
  | nil =>
    intro pre seen ft hnd hseen htopo hclosed hkeys hbest
    exact ⟨ft, rfl, by simpa using hkeys, by simpa using hbest⟩
  | cons t ts ih =>
    intro pre seen ft hnd hseen htopo hclosed hkeys hbest
    rw [topoOKb, Bool.and_eq_true] at htopo
    obtain ⟨htopo1, htopo2⟩ := htopo
    have hdepseen : ∀ d ∈ t.dependencies, d ≠ "" → d ∈ namesOf pre := by
      intro d hd hne
      have hx := List.all_eq_true.mp htopo1 d hd
      rcases (by simpa using hx : d = "" ∨ d ∈ seen) with h | h
      · exact absurd h hne
      · exact (hseen d).mp h
    have hnew : t.name ∉ namesOf pre := by
      have hsplit : (namesOf (pre ++ t :: ts)) = namesOf pre ++ t.name :: namesOf ts := by
        simp [namesOf]
      rw [hsplit] at hnd
      intro hmem
      exact (List.nodup_append.mp hnd).2.2 hmem (by simp)
    have hlk : ∀ d ∈ t.dependencies, d ≠ "" → ∃ v, ft.lookup d = some v := by
      intro d hd hne
      apply lookup_isSome
      rw [hkeys]
      exact hdepseen d hd hne
    obtain ⟨m, hm, hm0, hmbound, hmatt⟩ := maxDepFinish_spec ft t.dependencies 0 hlk
    have hfresh : t.name ∉ ft.map Prod.fst := by rw [hkeys]; exact hnew
    have hupd : dictUpd ft t.name (m + t.duration) = ft ++ [(t.name, m + t.duration)] :=
      dictUpd_fresh _ hfresh
    have hlkt : (ft ++ [(t.name, m + t.duration)]).lookup t.name = some (m + t.duration) := by
      rw [lookup_append_right (lookup_eq_none hfresh)]
      simp [List.lookup]
    have hbest2 : ∀ u ∈ pre, ∃ w,
        (ft ++ [(t.name, m + t.duration)]).lookup u.name = some w ∧
        BestFrom (pre ++ [t]) u w := by
      intro u hu
      obtain ⟨w, hw, hbf⟩ := hbest u hu
      refine ⟨w, lookup_append_left hw, ?_, ?_⟩
      · intro c hc hh
        exact hbf.1 c (chain_restrict hclosed hnew hc hh hu) hh
      · obtain ⟨c, hc, hh, hsum⟩ := hbf.2
        exact ⟨c, hc.of_subset (fun x hx => List.mem_append_left _ hx), hh, hsum⟩
    have hbft : BestFrom (pre ++ [t]) t (m + t.duration) := by
      constructor
      · intro c hc hh
        cases hc with
        | single u hu =>
          have hu_t : u = t := by simpa using hh
          subst hu_t
          have : chainSum [u] = u.duration := by simp [chainSum]
          omega
        | cons u v restc hu hdep hne hc2 =>
          have hu_t : u = t := by simpa using hh
          subst hu_t
          have hvmem : v ∈ pre ++ [u] := hc2.head_mem (by simp)
          have hvn : v.name ∈ namesOf pre := hdepseen _ hdep hne
          have hv_pre : v ∈ pre := by
            rcases List.mem_append.mp hvmem with h | h
            · exact h
            · exfalso
              simp at h
              subst h
              exact hnew hvn
          have hcpre : DepChain pre (v :: restc) :=
            chain_restrict hclosed hnew hc2 (by simp) hv_pre
          obtain ⟨wv, hwv, hbfv⟩ := hbest v hv_pre
          have h1 : chainSum (v :: restc) ≤ wv := hbfv.1 _ hcpre (by simp)
          have h2 : wv ≤ m := hmbound v.name hdep hne wv hwv
          rw [chainSum_cons]
          omega
      · rcases hmatt with h0 | ⟨d, hd, hdne, hdlk⟩
        · refine ⟨[t], .single t (by simp), rfl, ?_⟩
          subst h0
          simp [chainSum]
        · obtain ⟨u, hu_pre, hun⟩ :
              ∃ u ∈ pre, u.name = d := by simpa [namesOf] using hdepseen d hd hdne
          obtain ⟨wu, hwu, hbfu⟩ := hbest u hu_pre
          have hwm : wu = m := by
            rw [hun, hdlk] at hwu
            exact (Option.some.inj hwu).symm
          subst hwm
          obtain ⟨c, hc, hh, hsum⟩ := hbfu.2
          obtain ⟨tail, rfl⟩ : ∃ tail, c = u :: tail := by
            cases c with
            | nil => simp at hh
            | cons x xs =>
              have : x = u := by simpa using hh
              subst this
              exact ⟨xs, rfl⟩
          refine ⟨t :: u :: tail,
            .cons t u tail (by simp) (by rw [hun]; exact hd) (by rw [hun]; exact hdne)
              (hc.of_subset (fun x hx => List.mem_append_left _ hx)), rfl, ?_⟩
          rw [chainSum_cons, hsum]
          omega
    have hnd2 : (namesOf ((pre ++ [t]) ++ ts)).Nodup := by
      rw [List.append_assoc]
      simpa using hnd
    have hseen2 : ∀ n, n ∈ t.name :: seen ↔ n ∈ namesOf (pre ++ [t]) := by
      intro n
      simp only [List.mem_cons, hseen n, namesOf, List.map_append, List.map_cons,
        List.map_nil, List.mem_append, List.mem_singleton]
      tauto
    have hclosed2 : ∀ v ∈ pre ++ [t], ∀ d ∈ v.dependencies, d ≠ "" →
        d ∈ namesOf (pre ++ [t]) := by
      intro v hv d hd hne
      have hmem : d ∈ namesOf pre := by
        rcases List.mem_append.mp hv with h | h
        · exact hclosed v h d hd hne
        · simp at h
          subst h
          exact hdepseen d hd hne
      rw [show namesOf (pre ++ [t]) = namesOf pre ++ [t.name] from by simp [namesOf]]
      exact List.mem_append_left _ hmem
    have hkeys2 : (ft ++ [(t.name, m + t.duration)]).map Prod.fst =
        namesOf (pre ++ [t]) := by
      simp [List.map_append, hkeys, namesOf]
    obtain ⟨ft2, hft2, hkeysf, hbestf⟩ := ih (pre ++ [t]) (t.name :: seen)
      (ft ++ [(t.name, m + t.duration)]) hnd2 hseen2 htopo2 hclosed2 hkeys2
      (fun u hu => by
        rcases List.mem_append.mp hu with h | h
        · exact hbest2 u h
        · simp at h
          rw [h]
          exact ⟨m + t.duration, hlkt, hbft⟩)
    rw [List.append_assoc, List.singleton_append] at hkeysf hbestf
    refine ⟨ft2, ?_, hkeysf, hbestf⟩
    simp only [calcLoop, hm, hupd]
    exact hft2

/-- C1 (amended): on a task list with unique names whose input order is a
dependency order (every nonempty dependency names an earlier task — in particular
the graph is acyclic), `calculate_expected_runtime` returns the longest sum of
durations along any dependency chain, 0 for the empty graph. -/
theorem c1_makespan_topo (tasks : List Task)
    (hnd : (namesOf tasks).Nodup) (htopo : topoOKb [] tasks = true) :
    ∃ r, calculate_expected_runtime tasks = some r ∧ IsMakespanOf tasks r := by
  obtain ⟨ft2, hcalc, hkeys, hbest⟩ := calcLoop_spec tasks [] [] []
    (by simpa using hnd) (by simp [namesOf]) htopo (by simp) (by simp [namesOf])
    (by simp)
  have hkeys2 : ft2.map Prod.fst = namesOf tasks := by simpa using hkeys
  refine ⟨maxValues ft2, by simp [calculate_expected_runtime, hcalc], ?_, ?_⟩
  · intro c hc
    obtain ⟨h, tail, rfl⟩ : ∃ h tail, c = h :: tail := by
      cases c with
      | nil => exact absurd rfl hc.ne_nil
      | cons x xs => exact ⟨x, xs, rfl⟩
    have hmem : h ∈ tasks := hc.head_mem (by simp)
    obtain ⟨w, hw, hbf⟩ := hbest h hmem
    have h1 : chainSum (h :: tail) ≤ w := hbf.1 _ hc (by simp)
    exact le_trans h1 (maxValues_ge (lookup_mem hw))
  · cases tasks with
    | nil =>
      left
      have hft2 : ft2 = [] := by
        cases ft2 with
        | nil => rfl
        | cons p ps => simp [namesOf] at hkeys2
      subst hft2
      exact ⟨rfl, rfl⟩
    | cons t0 ts0 =>
      right
      have hne : ft2 ≠ [] := by
        intro hft2
        subst hft2
        simp [namesOf] at hkeys2
      obtain ⟨p, hp, hpmax⟩ := maxValues_attained hne
      have hp1 : p.1 ∈ namesOf (t0 :: ts0) := by
        rw [← hkeys2]
        exact List.mem_map_of_mem Prod.fst hp
      obtain ⟨u, hu, hun⟩ :=
        List.mem_map.mp (show p.1 ∈ (t0 :: ts0).map Task.name from hp1)
      obtain ⟨w, hw, hbf⟩ := hbest u hu
      have hndk : (ft2.map Prod.fst).Nodup := by rw [hkeys2]; exact hnd
      have hw2 : ft2.lookup p.1 = some p.2 :=
        lookup_eq_of_mem_nodup hndk (by rw [show (p.1, p.2) = p from rfl]; exact hp)
      rw [hun, hw2] at hw
      have hwp : w = p.2 := (Option.some.inj hw).symm
      obtain ⟨c, hc, _, hsum⟩ := hbf.2
      exact ⟨c, hc, by rw [hsum, hwp, hpmax]⟩

/-- C1 witness: the spec's worked example A(5)→B(3)→C(2), listed in dependency
order, computes an expected runtime of 10, which is the longest chain sum. -/
theorem c1_makespan_topo_witness :
    (namesOf exChain).Nodup ∧ topoOKb [] exChain = true ∧
    calculate_expected_runtime exChain = some 10 ∧
    ∃ r, calculate_expected_runtime exChain = some r ∧ IsMakespanOf exChain r :=
  ⟨by decide, by decide, by rfl, c1_makespan_topo exChain (by decide) (by decide)⟩

theorem mem_setAdd {s : List String} {x y : String} :
    y ∈ setAdd s x ↔ y = x ∨ y ∈ s := by
  unfold setAdd
  split
  · constructor
    · exact fun h => Or.inr h
    · rintro (rfl | h)
      · assumption
      · exact h
  · simp [List.mem_cons]

theorem mem_setRemove {s : List String} {x y : String} :
    y ∈ setRemove s x ↔ y ∈ s ∧ y ≠ x := by
  unfold setRemove
  simp

theorem setAdd_of_not_mem {s : List String} {x : String} (h : x ∉ s) :
    setAdd s x = x :: s := by
  simp [setAdd, h]

theorem setRemove_setAdd {s : List String} {x : String} (h : x ∉ s) :
    setRemove (setAdd s x) x = s := by
  rw [setAdd_of_not_mem h]
  unfold setRemove
  rw [List.filter_cons]
  simp only [beq_self_eq_true, Bool.not_true, Bool.false_eq_true, if_false, ite_false]
  apply List.filter_eq_self.mpr
  intro y hy
  simp only [Bool.not_eq_true', beq_eq_false_iff_ne, ne_eq]
  intro he
  subst he
  exact h hy

theorem name_inj {tasks : List Task} (ND : (namesOf tasks).Nodup) {t1 t2 : Task}
    (h1 : t1 ∈ tasks) (h2 : t2 ∈ tasks) (he : t1.name = t2.name) : t1 = t2 :=
  List.inj_on_of_nodup_map ND h1 h2 he

theorem find_task_mem {tasks : List Task} {d : String} {u : Task}
    (h : find_task tasks d = some u) : u ∈ tasks ∧ u.name = d := by
  unfold find_task at h
  refine ⟨List.mem_of_find?_eq_some h, ?_⟩
  have := List.find?_some h
  simpa using this

theorem find_task_of_mem_names {tasks : List Task} {d : String}
    (h : d ∈ namesOf tasks) : ∃ u, find_task tasks d = some u ∧ u.name = d := by
  obtain ⟨t, ht, htn⟩ := List.mem_map.mp h
  have : (find_task tasks d).isSome := by
    unfold find_task
    rw [List.find?_isSome]
    exact ⟨t, ht, by simpa using htn⟩
  obtain ⟨u, hu⟩ := Option.isSome_iff_exists.mp this
  exact ⟨u, hu, (find_task_mem hu).2⟩

theorem filter_length_mono {p q : Task → Bool} (l : List Task)
    (h : ∀ x ∈ l, p x = true → q x = true) :
    (l.filter p).length ≤ (l.filter q).length := by
  rw [← List.countP_eq_length_filter, ← List.countP_eq_length_filter]
  exact List.countP_mono_left h

theorem unvisCount_mono {tasks : List Task} {v1 v2 : List String}
    (h : ∀ x ∈ v1, x ∈ v2) : unvisCount tasks v2 ≤ unvisCount tasks v1 := by
  unfold unvisCount
  apply filter_length_mono
  intro t _ hp
  have hp2 : t.name ∉ v2 := by simpa using hp
  simpa using fun hmem => hp2 (h _ hmem)

theorem unvisCount_insert_lt {tasks : List Task} {visited : List String} {t : Task}
    (ht : t ∈ tasks) (hnv : t.name ∉ visited) :
    unvisCount tasks (setAdd visited t.name) < unvisCount tasks visited := by
  unfold unvisCount
  induction tasks with
  | nil => simp at ht
  | cons a as iha =>
    rw [List.filter_cons, List.filter_cons]
    have himp : ∀ x : Task, (!(setAdd visited t.name).contains x.name) = true →
        (!(visited.contains x.name)) = true := by
      intro x hx
      have hx2 : x.name ∉ setAdd visited t.name := by simpa using hx
      simpa using fun hm => hx2 (mem_setAdd.mpr (Or.inr hm))
    have hmono : (as.filter fun x => !(setAdd visited t.name).contains x.name).length ≤
        (as.filter fun x => !(visited.contains x.name)).length :=
      filter_length_mono as (fun x _ => himp x)
    rcases List.mem_cons.mp ht with he | hmem
    · subst he
      have c1 : (!(setAdd visited t.name).contains t.name) = false := by
        simpa using mem_setAdd.mpr (Or.inl rfl)
      have c2 : (!(visited.contains t.name)) = true := by simpa using hnv
      simp only [c1, c2, Bool.false_eq_true, if_false, if_true, ite_false, ite_true,
        List.length_cons]
      omega
    · have hstrict := iha hmem
      cases hpa2 : (!(setAdd visited t.name).contains a.name) with
      | true =>
        have hpa : (!(visited.contains a.name)) = true := himp a hpa2
        simp only [hpa2, hpa, if_true, ite_true, List.length_cons]
        omega
      | false =>
        cases hpa : (!(visited.contains a.name)) with
        | true =>
          simp only [hpa2, hpa, Bool.false_eq_true, if_false, ite_false, if_true,
            ite_true, List.length_cons]
          omega
        | false =>
          simp only [hpa2, hpa, Bool.false_eq_true, if_false, ite_false]
          omega

theorem ClosedIn.mono_visited {v v' r : List String} {x : String}
    (hsub : ∀ y ∈ v, y ∈ v') (h : ClosedIn v r x) : ClosedIn v' r x :=
  ⟨hsub _ h.1, h.2⟩

theorem closed_push_iff {visited recStack : List String} {x : String}
    (hnv : x ∉ visited) (_hsub : ∀ y ∈ recStack, y ∈ visited) (v : String) :
    ClosedIn (setAdd visited x) (setAdd recStack x) v ↔ ClosedIn visited recStack v := by
  constructor
  · rintro ⟨h1, h2⟩
    have hvx : v ≠ x := fun he => h2 (by rw [he]; exact mem_setAdd.mpr (Or.inl rfl))
    refine ⟨?_, fun hm => h2 (mem_setAdd.mpr (Or.inr hm))⟩
    rcases mem_setAdd.mp h1 with he | h
    · exact absurd he hvx
    · exact h
  · rintro ⟨h1, h2⟩
    have hvx : v ≠ x := fun he => hnv (by rw [← he]; exact h1)
    refine ⟨mem_setAdd.mpr (Or.inr h1), fun hm => ?_⟩
    rcases mem_setAdd.mp hm with he | h
    · exact hvx he
    · exact h2 h

theorem GInv.push {tasks : List Task} {visited recStack : List String}
    (hG : GInv tasks visited recStack) {t : Task} (ht : t ∈ tasks)
    (hnv : t.name ∉ visited) :
    GInv tasks (setAdd visited t.name) (setAdd recStack t.name) := by
  have hiff := closed_push_iff hnv hG.stack_sub
  constructor
  · intro v hv
    rcases mem_setAdd.mp hv with he | h
    · rw [he]; exact List.mem_map_of_mem Task.name ht
    · exact hG.sub_names v h
  · intro v hv
    rcases mem_setAdd.mp hv with he | h
    · exact mem_setAdd.mpr (Or.inl he)
    · exact mem_setAdd.mpr (Or.inr (hG.stack_sub v h))
  · intro v hv w hw
    exact (hiff w).mpr (hG.closed_reach v ((hiff v).mp hv) w hw)
  · intro v hv
    exact hG.closed_acyc v ((hiff v).mp hv)

theorem hasDanglingB_eq_false_iff (tasks : List Task) :
    hasDanglingB tasks = false ↔
      ∀ t ∈ tasks, ∀ d ∈ t.dependencies, d ≠ "" → d ∈ namesOf tasks := by
  unfold hasDanglingB
  rw [List.any_eq_false]
  constructor
  · intro h t ht d hd hne
    have h2 : (t.dependencies.any fun d => !(d == "") && !((namesOf tasks).contains d))
        = false := by
      simpa using h t ht
    rw [List.any_eq_false] at h2
    have hd2 : ((!(d == "")) && !((namesOf tasks).contains d)) = false := by
      simpa using h2 d hd
    cases hbe : (d == "") with
    | true => exact absurd (by simpa using hbe) hne
    | false =>
      rw [hbe] at hd2
      simp only [Bool.not_false, Bool.true_and, Bool.not_eq_false'] at hd2
      simpa using hd2
  · intro h t ht
    have hfalse : (t.dependencies.any fun d =>
        !(d == "") && !((namesOf tasks).contains d)) = false := by
      rw [List.any_eq_false]
      intro d hd
      cases hbe : (d == "") with
      | true => simp [hbe]
      | false =>
        have hne : d ≠ "" := by simpa using hbe
        have hmem := h t ht d hd hne
        simp [hbe, hmem]
    simpa using hfalse

theorem depScan_cases (n : String) (names : List String) (ds : List String) :
    ((∀ d ∈ ds, d ≠ "" → d ∈ names) ∧ depScan n names ds = none) ∨
    (∃ d ∈ ds, d ≠ "" ∧ d ∉ names ∧ depScan n names ds = some (unknownDepMsg n d)) := by
  induction ds with
  | nil => exact Or.inl ⟨by simp, rfl⟩
  | cons d ds ih =>
    by_cases hbad : d ≠ "" ∧ d ∉ names
    · right
      exact ⟨d, by simp, hbad.1, hbad.2, by simp [depScan, hbad]⟩
    · have hstep : depScan n names (d :: ds) = depScan n names ds := by
        simp [depScan, hbad]
      rcases ih with ⟨hall, hnone⟩ | ⟨x, hx, hxne, hxnm, hsome⟩
      · left
        refine ⟨?_, by rw [hstep]; exact hnone⟩
        intro x hx hxne
        rcases List.mem_cons.mp hx with he | h
        · subst he
          by_cases hmem : x ∈ names
          · exact hmem
          · exact absurd ⟨hxne, hmem⟩ hbad
        · exact hall x h hxne
      · right
        exact ⟨x, List.mem_cons_of_mem _ hx, hxne, hxnm, by rw [hstep]; exact hsome⟩

theorem checkDepsAux_cases (names : List String) (ts : List Task) :
    ((∀ t ∈ ts, ∀ d ∈ t.dependencies, d ≠ "" → d ∈ names) ∧
      checkDepsAux names ts = none) ∨
    (∃ t ∈ ts, ∃ d ∈ t.dependencies, d ≠ "" ∧ d ∉ names ∧
      checkDepsAux names ts = some (unknownDepMsg t.name d)) := by
  induction ts with
  | nil => exact Or.inl ⟨by simp, rfl⟩
  | cons t ts ih =>
    rcases depScan_cases t.name names t.dependencies with ⟨hall, hnone⟩ | ⟨d, hd, hdne, hdnm, hsome⟩
    · have hstep : checkDepsAux names (t :: ts) = checkDepsAux names ts := by
        simp [checkDepsAux, hnone]
      rcases ih with ⟨hall2, hnone2⟩ | ⟨u, hu, d, hd, hdne, hdnm, hsome2⟩
      · left
        refine ⟨?_, by rw [hstep]; exact hnone2⟩
        intro u hu
        rcases List.mem_cons.mp hu with he | h
        · subst he; exact hall
        · exact hall2 u h
      · right
        exact ⟨u, List.mem_cons_of_mem _ hu, d, hd, hdne, hdnm, by rw [hstep]; exact hsome2⟩
    · right
      exact ⟨t, by simp, d, hd, hdne, hdnm, by simp [checkDepsAux, hsome]⟩

theorem checkDeps_none_of_no_dangling {tasks : List Task}
    (h : hasDanglingB tasks = false) : checkDeps tasks = none := by
  rcases checkDepsAux_cases (namesOf tasks) tasks with ⟨_, hnone⟩ | ⟨t, ht, d, hd, hdne, hdnm, _⟩
  · exact hnone
  · exact absurd ((hasDanglingB_eq_false_iff tasks).mp h t ht d hd hdne) hdnm

theorem checkDeps_some_of_dangling {tasks : List Task}
    (h : hasDanglingB tasks = true) :
    ∃ t ∈ tasks, ∃ d ∈ t.dependencies, d ≠ "" ∧ d ∉ namesOf tasks ∧
      checkDeps tasks = some (unknownDepMsg t.name d) := by
  rcases checkDepsAux_cases (namesOf tasks) tasks with ⟨hall, _⟩ | hsome
  · exfalso
    have : hasDanglingB tasks = false := (hasDanglingB_eq_false_iff tasks).mpr hall
    rw [this] at h
    exact Bool.false_ne_true h
  · exact hsome

theorem dfsLoop_no_crash_of (tasks : List Task)
    (next : List String → List String → Task → DfsOut)
    (hnext : ∀ visited recStack t, t ∈ tasks → next visited recStack t ≠ .crash) :
    ∀ ds visited recStack, (∀ d ∈ ds, d ≠ "" → d ∈ namesOf tasks) →
      dfsLoop tasks next visited recStack ds ≠ .crash := by
  intro ds
  induction ds with
  | nil =>
    intro visited recStack _
    simp [dfsLoop]
  | cons d ds ih =>
    intro visited recStack hds
    rw [dfsLoop]
    by_cases hd : d = ""
    · simpa [hd] using ih visited recStack
        (fun x hx => hds x (List.mem_cons_of_mem _ hx))
    · obtain ⟨dt, hdt, _⟩ := find_task_of_mem_names (hds d (by simp) hd)
      simp only [hd, ite_false, if_neg, hdt]
      by_cases hv : d ∈ visited
      · simp only [hv, not_true, ite_false, if_neg]
        by_cases hr : d ∈ recStack
        · simp [hr]
        · simpa [hr] using ih visited recStack
            (fun x hx => hds x (List.mem_cons_of_mem _ hx))
      · simp only [hv, not_false_iff, ite_true, if_pos]
        cases hres : next visited recStack dt with
        | ok v r c =>
          cases c with
          | true => simp
          | false =>
            exact ih v r (fun x hx => hds x (List.mem_cons_of_mem _ hx))
        | crash => exact absurd hres (hnext _ _ dt (find_task_mem hdt).1)
        | outOfFuel => simp

theorem dfs_no_crash (tasks : List Task)
    (NoDang : ∀ t ∈ tasks, ∀ d ∈ t.dependencies, d ≠ "" → d ∈ namesOf tasks) :
    ∀ fuel visited recStack t, t ∈ tasks →
      dfs tasks fuel visited recStack t ≠ .crash := by
  intro fuel
  induction fuel with
  | zero =>
    intro visited recStack t _
    simp [dfs]
  | succ f ihf =>
    intro visited recStack t ht
    rw [dfs]
    have hloop := dfsLoop_no_crash_of tasks (fun v r u => dfs tasks f v r u)
      (fun v r u hu => ihf v r u hu) t.dependencies
      (setAdd visited t.name) (setAdd recStack t.name)
      (fun d hd hne => NoDang t ht d hd hne)
    cases hres : dfsLoop tasks (fun v r u => dfs tasks f v r u)
        (setAdd visited t.name) (setAdd recStack t.name) t.dependencies with
    | ok v r c => cases c <;> simp
    | crash => exact absurd hres hloop
    | outOfFuel => simp

theorem detectFrom_no_crash (tasks : List Task)
    (NoDang : ∀ t ∈ tasks, ∀ d ∈ t.dependencies, d ≠ "" → d ∈ namesOf tasks) :
    ∀ roots visited recStack, (∀ t ∈ roots, t ∈ tasks) →
      detectFrom tasks visited recStack roots ≠ .crash := by
  intro roots
  induction roots with
  | nil =>
    intro visited recStack _
    simp [detectFrom]
  | cons t ts ih =>
    intro visited recStack hroots
    rw [detectFrom]
    by_cases hv : t.name ∈ visited
    · simpa [hv] using ih visited recStack
        (fun x hx => hroots x (List.mem_cons_of_mem _ hx))
    · simp only [hv, ite_false, if_neg]
      cases hres : dfs tasks (tasks.length + 1) visited recStack t with
      | ok v r c =>
        cases c with
        | true => simp
        | false =>
          exact ih v r (fun x hx => hroots x (List.mem_cons_of_mem _ hx))
      | crash =>
        exact absurd hres (dfs_no_crash tasks NoDang _ _ _ t (hroots t (by simp)))
      | outOfFuel => simp

/-- C7: the dependency-existence check runs (to completion) before cycle detection:
a dangling dependency surfaces as the unknown-dependency error from the first
check, and cycle detection is never consulted; and when every referenced
dependency exists, the task lookup inside the cycle-detection DFS never fails
(the StopIteration crash of line 85 is unreachable). -/
theorem c7_existence_before_cycles (tasks : List Task) :
    (hasDanglingB tasks = true →
      ∃ t ∈ tasks, ∃ d ∈ t.dependencies, d ≠ "" ∧ d ∉ namesOf tasks ∧
        validateTasks tasks = .rejected (unknownDepMsg t.name d)) ∧
    (hasDanglingB tasks = false → detect_cycles tasks ≠ .crash) := by
  constructor
  · intro h
    obtain ⟨t, ht, d, hd, hdne, hdnm, hmsg⟩ := checkDeps_some_of_dangling h
    exact ⟨t, ht, d, hd, hdne, hdnm, by simp [validateTasks, hmsg]⟩
  · intro h
    exact detectFrom_no_crash tasks ((hasDanglingB_eq_false_iff tasks).mp h)
      tasks [] [] (fun x hx => hx)

/-- C7 witness: a concrete dangling graph is rejected with the unknown-dependency
message, and a concrete well-referenced graph runs cycle detection without the
lookup failing. -/
theorem c7_existence_before_cycles_witness :
    (∃ t ∈ exDangling, ∃ d ∈ t.dependencies, d ≠ "" ∧ d ∉ namesOf exDangling ∧
      validateTasks exDangling = Verdict.rejected (unknownDepMsg t.name d)) ∧
    detect_cycles exTwoCycle ≠ DetectRes.crash :=
  ⟨(c7_existence_before_cycles exDangling).1 (by rfl),
   (c7_existence_before_cycles exTwoCycle).2 (by rfl)⟩

theorem unvisCount_le_length (tasks : List Task) (visited : List String) :
    unvisCount tasks visited ≤ tasks.length :=
  List.length_filter_le _ _

/-- Soundness and completeness of one `dfs` dependency-loop pass, for an abstract
recursive call `next` satisfying the `dfs` contract below a fuel-measure bound. -/
theorem dfsLoop_sound (tasks : List Task) (_ND : (namesOf tasks).Nodup)
    (NoDang : ∀ t ∈ tasks, ∀ d ∈ t.dependencies, d ≠ "" → d ∈ namesOf tasks)
    (F : Nat) (next : List String → List String → Task → DfsOut)
    (hnext : ∀ visited recStack t,
      GInv tasks visited recStack → t ∈ tasks → t.name ∉ visited →
      (∀ x ∈ recStack, Relation.ReflTransGen (Edge tasks) x t.name) →
      unvisCount tasks visited < F →
      (∀ v r, next visited recStack t = .ok v r true → HasCycle tasks) ∧
      (next visited recStack t ≠ .outOfFuel) ∧
      (next visited recStack t ≠ .crash) ∧
      (∀ v r, next visited recStack t = .ok v r false →
        r = recStack ∧ (∀ x ∈ visited, x ∈ v) ∧ t.name ∈ v ∧ GInv tasks v r ∧
        ClosedIn v r t.name)) :
    ∀ ds visited recStack tname,
      GInv tasks visited recStack →
      tname ∈ recStack →
      (∀ x ∈ recStack, Relation.ReflTransGen (Edge tasks) x tname) →
      (∀ d ∈ ds, d ≠ "" → Edge tasks tname d) →
      unvisCount tasks visited < F →
      (∀ v r, dfsLoop tasks next visited recStack ds = .ok v r true →
        HasCycle tasks) ∧
      (dfsLoop tasks next visited recStack ds ≠ .outOfFuel) ∧
      (∀ v r, dfsLoop tasks next visited recStack ds = .ok v r false →
        r = recStack ∧ (∀ x ∈ visited, x ∈ v) ∧ GInv tasks v r ∧
        ∀ d ∈ ds, d ≠ "" → ClosedIn v r d) := by
  intro ds
  induction ds with
  | nil =>
    intro visited recStack tname hG _ _ _ _
    refine ⟨?_, by simp [dfsLoop], ?_⟩
    · intro v r heq
      rw [dfsLoop] at heq
      cases heq
    · intro v r heq
      rw [dfsLoop] at heq
      injection heq with h1 h2 _
      subst h1
      subst h2
      exact ⟨rfl, fun x hx => hx, hG, by simp⟩
  | cons d ds ih =>
    intro visited recStack tname hG hon hpath hds hcnt
    by_cases hd : d = ""
    · have hstep : dfsLoop tasks next visited recStack (d :: ds) =
          dfsLoop tasks next visited recStack ds := by
        rw [dfsLoop]
        simp [hd]
      obtain ⟨c1, c2, c3⟩ := ih visited recStack tname hG hon hpath
        (fun x hx hxne => hds x (List.mem_cons_of_mem _ hx) hxne) hcnt
      rw [hstep]
      refine ⟨c1, c2, ?_⟩
      intro v r heq
      obtain ⟨e1, e2, e3, e4⟩ := c3 v r heq
      refine ⟨e1, e2, e3, ?_⟩
      intro x hx hxne
      rcases List.mem_cons.mp hx with he | hm
      · exact absurd (he.trans hd) hxne
      · exact e4 x hm hxne
    · have hedge : Edge tasks tname d := hds d (by simp) hd
      have hdnm : d ∈ namesOf tasks := by
        obtain ⟨t2, ht2, _, hdin, hdne⟩ := hedge
        exact NoDang t2 ht2 d hdin hdne
      obtain ⟨dt, hft, hdtn⟩ := find_task_of_mem_names hdnm
      have hdtmem : dt ∈ tasks := (find_task_mem hft).1
      by_cases hv : d ∈ visited
      · by_cases hr : d ∈ recStack
        · have hstep : dfsLoop tasks next visited recStack (d :: ds) =
              .ok visited recStack true := by
            rw [dfsLoop]
            simp [hd, hft, hv, hr]
          rw [hstep]
          have hcyc : HasCycle tasks :=
            ⟨d, Relation.TransGen.tail' (hpath d hr) hedge⟩
          refine ⟨fun v r _ => hcyc, by simp, ?_⟩
          intro v r heq
          injection heq with _ _ h3
          cases h3
        · have hstep : dfsLoop tasks next visited recStack (d :: ds) =
              dfsLoop tasks next visited recStack ds := by
            rw [dfsLoop]
            simp [hd, hft, hv, hr]
          obtain ⟨c1, c2, c3⟩ := ih visited recStack tname hG hon hpath
            (fun x hx hxne => hds x (List.mem_cons_of_mem _ hx) hxne) hcnt
          rw [hstep]
          refine ⟨c1, c2, ?_⟩
          intro v r heq
          obtain ⟨e1, e2, e3, e4⟩ := c3 v r heq
          refine ⟨e1, e2, e3, ?_⟩
          intro x hx hxne
          rcases List.mem_cons.mp hx with he | hm
          · subst he
            subst e1
            exact ⟨e2 x hv, hr⟩
          · exact e4 x hm hxne
      · have hnres := hnext visited recStack dt hG hdtmem (by rw [hdtn]; exact hv)
          (fun x hx => Relation.ReflTransGen.tail (hpath x hx) (by rw [hdtn]; exact hedge))
          hcnt
        cases hres : next visited recStack dt with
        | ok v2 r2 c =>
          cases c with
          | true =>
            have hstep : dfsLoop tasks next visited recStack (d :: ds) =
                .ok v2 r2 true := by
              rw [dfsLoop]
              simp [hd, hft, hv, hres]
            rw [hstep]
            have hcyc := hnres.1 v2 r2 hres
            refine ⟨fun v r _ => hcyc, by simp, ?_⟩
            intro v r heq
            injection heq with _ _ h3
            cases h3
          | false =>
            obtain ⟨e1, e2, e3, e4, e5⟩ := hnres.2.2.2 v2 r2 hres
            rw [e1] at e4 e5
            have hstep : dfsLoop tasks next visited recStack (d :: ds) =
                dfsLoop tasks next v2 recStack ds := by
              rw [dfsLoop]
              simp [hd, hft, hv, hres, e1]
            obtain ⟨c1, c2, c3⟩ := ih v2 recStack tname e4 hon hpath
              (fun x hx hxne => hds x (List.mem_cons_of_mem _ hx) hxne)
              (lt_of_le_of_lt (unvisCount_mono e2) hcnt)
            rw [hstep]
            refine ⟨c1, c2, ?_⟩
            intro v r heq
            obtain ⟨f1, f2, f3, f4⟩ := c3 v r heq
            refine ⟨f1, fun x hx => f2 x (e2 x hx), f3, ?_⟩
            intro x hx hxne
            rcases List.mem_cons.mp hx with he | hm
            · subst he
              subst f1
              rw [← hdtn]
              exact e5.mono_visited f2
            · exact f4 x hm hxne
        | crash => exact absurd hres hnres.2.2.1
        | outOfFuel => exact absurd hres hnres.2.1

/-- Soundness and completeness of `dfs`: below the fuel measure, a `true` result
witnesses a cycle, fuel never runs out, and a `false` result restores the
recursion stack, grows the visited set, and closes the task's name while
preserving the invariant. -/
theorem dfs_sound (tasks : List Task) (ND : (namesOf tasks).Nodup)
    (NoDang : ∀ t ∈ tasks, ∀ d ∈ t.dependencies, d ≠ "" → d ∈ namesOf tasks) :
    ∀ fuel visited recStack t,
      GInv tasks visited recStack → t ∈ tasks → t.name ∉ visited →
      (∀ x ∈ recStack, Relation.ReflTransGen (Edge tasks) x t.name) →
      unvisCount tasks visited < fuel →
      (∀ v r, dfs tasks fuel visited recStack t = .ok v r true → HasCycle tasks) ∧
      (dfs tasks fuel visited recStack t ≠ .outOfFuel) ∧
      (dfs tasks fuel visited recStack t ≠ .crash) ∧
      (∀ v r, dfs tasks fuel visited recStack t = .ok v r false →
        r = recStack ∧ (∀ x ∈ visited, x ∈ v) ∧ t.name ∈ v ∧ GInv tasks v r ∧
        ClosedIn v r t.name) := by
  intro fuel
  induction fuel with
  | zero =>
    intro visited recStack t _ _ _ _ hcnt
    exact absurd hcnt (Nat.not_lt_zero _)
  | succ f ihf =>
    intro visited recStack t hG ht hnv hpath hcnt
    have hGp : GInv tasks (setAdd visited t.name) (setAdd recStack t.name) :=
      hG.push ht hnv
    have hnstk : t.name ∉ recStack := fun hmem => hnv (hG.stack_sub _ hmem)
    have hpath2 : ∀ x ∈ setAdd recStack t.name,
        Relation.ReflTransGen (Edge tasks) x t.name := by
      intro x hx
      rcases mem_setAdd.mp hx with he | hm
      · rw [he]
      · exact hpath x hm
    have hcnt2 : unvisCount tasks (setAdd visited t.name) < f := by
      have h1 := unvisCount_insert_lt ht hnv
      omega
    have hloop := dfsLoop_sound tasks ND NoDang f (fun v r u => dfs tasks f v r u)
      (fun v r u hG2 hu hnv2 hpath3 hcnt3 => ihf v r u hG2 hu hnv2 hpath3 hcnt3)
      t.dependencies (setAdd visited t.name) (setAdd recStack t.name) t.name
      hGp (mem_setAdd.mpr (Or.inl rfl)) hpath2
      (fun d hd hne => ⟨t, ht, rfl, hd, hne⟩) hcnt2
    obtain ⟨hcy, hfu, hok⟩ := hloop
    cases hres : dfsLoop tasks (fun v r u => dfs tasks f v r u) (setAdd visited t.name)
        (setAdd recStack t.name) t.dependencies with
    | ok v r c =>
      cases c with
      | true =>
        have hstep : dfs tasks (f + 1) visited recStack t = .ok v r true := by
          rw [dfs, hres]
        rw [hstep]
        have hcyc := hcy v r hres
        refine ⟨fun _ _ _ => hcyc, by simp, by simp, ?_⟩
        intro v2 r2 heq
        injection heq with _ _ h3
        cases h3
      | false =>
        obtain ⟨e1, e2, e3, e4⟩ := hok v r hres
        have hstep : dfs tasks (f + 1) visited recStack t =
            .ok v (setRemove r t.name) false := by
          rw [dfs, hres]
        have hrr : setRemove r t.name = recStack := by
          rw [e1]
          exact setRemove_setAdd hnstk
        have hr_eq : r = t.name :: recStack := by
          rw [e1, setAdd_of_not_mem hnstk]
        have hmono : ∀ x ∈ visited, x ∈ v := fun x hx =>
          e2 x (mem_setAdd.mpr (Or.inr hx))
        have htv : t.name ∈ v := e2 t.name (mem_setAdd.mpr (Or.inl rfl))
        -- every dependency of t is closed in (v, r)
        have hsucc : ∀ b, Edge tasks t.name b → ClosedIn v r b := by
          intro b hb
          obtain ⟨t2, ht2, ht2n, hbin, hbne⟩ := hb
          have : t2 = t := name_inj ND ht2 ht ht2n
          subst this
          exact e4 b hbin hbne
        -- closedness in (v, recStack) is closedness in (v, r) plus t.name
        have hclosed_iff : ∀ x, ClosedIn v recStack x ↔ ClosedIn v r x ∨ x = t.name := by
          intro x
          rw [hr_eq]
          constructor
          · rintro ⟨h1, h2⟩
            by_cases he : x = t.name
            · exact Or.inr he
            · exact Or.inl ⟨h1, by simp [he, h2]⟩
          · rintro (⟨h1, h2⟩ | he)
            · exact ⟨h1, fun hm => h2 (List.mem_cons_of_mem _ hm)⟩
            · rw [he]
              exact ⟨htv, hnstk⟩
        have hGr := e3
        have hGnew : GInv tasks v recStack := by
          constructor
          · exact hGr.sub_names
          · intro x hx
            exact hGr.stack_sub x (by rw [hr_eq]; exact List.mem_cons_of_mem _ hx)
          · intro x hx w hw
            rcases (hclosed_iff x).mp hx with hcl | he
            · exact (hclosed_iff w).mpr (Or.inl (hGr.closed_reach x hcl w hw))
            · rcases Relation.ReflTransGen.cases_head hw with he2 | ⟨b, hb, hbw⟩
              · rw [← he2]
                exact hx
              · rw [he] at hb
                have hbcl := hsucc b hb
                exact (hclosed_iff w).mpr (Or.inl (hGr.closed_reach b hbcl w hbw))
          · intro x hx hcyc
            rcases (hclosed_iff x).mp hx with hcl | he
            · exact hGr.closed_acyc x hcl hcyc
            · obtain ⟨b, hb, hbx⟩ := (Relation.TransGen.head'_iff).mp hcyc
              rw [he] at hb hbx
              have hbcl := hsucc b hb
              have := hGr.closed_reach b hbcl t.name hbx
              exact this.2 (by rw [hr_eq]; simp)
        rw [hstep]
        refine ⟨?_, by simp, by simp, ?_⟩
        · intro v2 r2 heq
          injection heq with _ _ h3
          cases h3
        · intro v2 r2 heq
          injection heq with h1 h2 _
          subst h1
          subst h2
          exact ⟨hrr, hmono, htv, by rw [hrr]; exact hGnew,
            by rw [hrr]; exact ⟨htv, hnstk⟩⟩
    | crash =>
      exact absurd hres (dfsLoop_no_crash_of tasks _
        (fun v r u hu => dfs_no_crash tasks NoDang f v r u hu) t.dependencies _ _
        (fun d hd hne => NoDang t ht d hd hne))
    | outOfFuel => exact absurd hres hfu

/-- The root loop of `detect_cycles`: never out of fuel, sound for cycles, and on
a clean pass every processed root ends closed. -/
theorem detectFrom_spec (tasks : List Task) (ND : (namesOf tasks).Nodup)
    (NoDang : ∀ t ∈ tasks, ∀ d ∈ t.dependencies, d ≠ "" → d ∈ namesOf tasks) :
    ∀ roots visited,
      GInv tasks visited [] →
      (∀ t ∈ roots, t ∈ tasks) →
      (detectFrom tasks visited [] roots ≠ .outOfFuel) ∧
      (detectFrom tasks visited [] roots = .cycleFound → HasCycle tasks) ∧
      (detectFrom tasks visited [] roots = .noCycle →
        ∃ v, GInv tasks v [] ∧ (∀ x ∈ visited, x ∈ v) ∧
          ∀ t ∈ roots, ClosedIn v [] t.name) := by
  intro roots
  induction roots with
  | nil =>
    intro visited hG _
    refine ⟨by simp [detectFrom], ?_, ?_⟩
    · intro h
      rw [detectFrom] at h
      cases h
    · intro _
      exact ⟨visited, hG, fun x hx => hx, by simp⟩
  | cons t ts ih =>
    intro visited hG hroots
    by_cases hv : t.name ∈ visited
    · have hstep : detectFrom tasks visited [] (t :: ts) =
          detectFrom tasks visited [] ts := by
        rw [detectFrom]
        simp [hv]
      obtain ⟨c1, c2, c3⟩ := ih visited hG
        (fun x hx => hroots x (List.mem_cons_of_mem _ hx))
      rw [hstep]
      refine ⟨c1, c2, ?_⟩
      intro h
      obtain ⟨v, hGv, hmono, hcl⟩ := c3 h
      refine ⟨v, hGv, hmono, ?_⟩
      intro x hx
      rcases List.mem_cons.mp hx with he | hm
      · subst he
        exact ⟨hmono _ hv, by simp⟩
      · exact hcl x hm
    · have hcnt : unvisCount tasks visited < tasks.length + 1 :=
        Nat.lt_succ_of_le (unvisCount_le_length tasks visited)
      obtain ⟨d1, d2, d3, d4⟩ := dfs_sound tasks ND NoDang (tasks.length + 1)
        visited [] t hG (hroots t (by simp)) hv (by simp) hcnt
      cases hres : dfs tasks (tasks.length + 1) visited [] t with
      | ok v2 r2 c =>
        cases c with
        | true =>
          have hstep : detectFrom tasks visited [] (t :: ts) = .cycleFound := by
            rw [detectFrom]
            simp [hv, hres]
          rw [hstep]
          refine ⟨by simp, fun _ => d1 v2 r2 hres, ?_⟩
          intro h
          cases h
        | false =>
          obtain ⟨e1, e2, e3, e4, e5⟩ := d4 v2 r2 hres
          have hstep : detectFrom tasks visited [] (t :: ts) =
              detectFrom tasks v2 [] ts := by
            rw [detectFrom]
            simp [hv, hres, e1]
          obtain ⟨c1, c2, c3⟩ := ih v2 (by rw [← e1]; exact e4)
            (fun x hx => hroots x (List.mem_cons_of_mem _ hx))
          rw [hstep]
          refine ⟨c1, c2, ?_⟩
          intro h
          obtain ⟨v, hGv, hmono, hcl⟩ := c3 h
          refine ⟨v, hGv, fun x hx => hmono x (e2 x hx), ?_⟩
          intro x hx
          rcases List.mem_cons.mp hx with he | hm
          · subst he
            rw [e1] at e5
            exact e5.mono_visited hmono
          · exact hcl x hm
      | crash => exact absurd hres d3
      | outOfFuel => exact absurd hres d2

/-- Full characterization of `detect_cycles` on a well-formed, fully-referenced
graph: it answers `cycleFound` exactly on cyclic graphs, `noCycle` exactly on
acyclic ones, and neither crashes nor exhausts the recursion budget. -/
theorem detect_cycles_spec (tasks : List Task) (ND : (namesOf tasks).Nodup)
    (NoDang : ∀ t ∈ tasks, ∀ d ∈ t.dependencies, d ≠ "" → d ∈ namesOf tasks) :
    (detect_cycles tasks = .cycleFound ↔ HasCycle tasks) ∧
    (detect_cycles tasks = .noCycle ↔ ¬ HasCycle tasks) ∧
    detect_cycles tasks ≠ .crash ∧ detect_cycles tasks ≠ .outOfFuel := by
  have hGinit : GInv tasks [] [] := by
    refine ⟨?_, ?_, ?_, ?_⟩
    · intro v hv
      simp at hv
    · intro v hv
      simp at hv
    · intro v hv
      exact absurd hv.1 (by simp)
    · intro v hv
      exact absurd hv.1 (by simp)
  obtain ⟨hfu, hcyc, hnoc⟩ := detectFrom_spec tasks ND NoDang tasks [] hGinit
    (fun x hx => hx)
  have hnocrash : detect_cycles tasks ≠ .crash :=
    detectFrom_no_crash tasks NoDang tasks [] [] (fun x hx => hx)
  have hnc_acyc : detect_cycles tasks = .noCycle → ¬ HasCycle tasks := by
    intro h hcycle
    obtain ⟨v, hGv, _, hclosed⟩ := hnoc h
    obtain ⟨n, hn⟩ := hcycle
    obtain ⟨b, hb, _⟩ := (Relation.TransGen.head'_iff).mp hn
    obtain ⟨t2, ht2, ht2n, _, _⟩ := hb
    have hcl : ClosedIn v [] n := by
      rw [← ht2n]
      exact hclosed t2 ht2
    exact hGv.closed_acyc n hcl hn
  refine ⟨⟨fun h => hcyc h, fun hc => ?_⟩, ⟨fun h => hnc_acyc h, fun hac => ?_⟩,
    hnocrash, hfu⟩
  · cases hres : detect_cycles tasks with
    | cycleFound => rfl
    | noCycle => exact absurd hc (hnc_acyc hres)
    | crash => exact absurd hres hnocrash
    | outOfFuel => exact absurd hres hfu
  · cases hres : detect_cycles tasks with
    | cycleFound => exact absurd (hcyc hres) hac
    | noCycle => rfl
    | crash => exact absurd hres hnocrash
    | outOfFuel => exact absurd hres hfu

/-- C4: on a graph with unique names, validation rejects every graph with a
dependency reference to a nonexistent task name — reporting the offending task and
the missing name — rejects exactly the graphs whose dependency relation has a
cycle (self-dependencies and 2-node mutual dependencies included), and accepts
exactly the acyclic well-referenced graphs, disconnected components included. -/
theorem c4_validator_correct (tasks : List Task) (ND : (namesOf tasks).Nodup) :
    (hasDanglingB tasks = true →
      ∃ t ∈ tasks, ∃ d ∈ t.dependencies, d ≠ "" ∧ d ∉ namesOf tasks ∧
        validateTasks tasks = .rejected (unknownDepMsg t.name d)) ∧
    (hasDanglingB tasks = false →
      (validateTasks tasks = .rejected "Dependency cycle detected" ↔
        HasCycle tasks)) ∧
    (hasDanglingB tasks = false →
      (validateTasks tasks = .accepted ↔ ¬ HasCycle tasks)) := by
  refine ⟨?_, ?_, ?_⟩
  · intro h
    obtain ⟨t, ht, d, hd, hdne, hdnm, hmsg⟩ := checkDeps_some_of_dangling h
    exact ⟨t, ht, d, hd, hdne, hdnm, by simp [validateTasks, hmsg]⟩
  · intro h
    have hnone := checkDeps_none_of_no_dangling h
    obtain ⟨hc1, hc2, hc3, hc4⟩ := detect_cycles_spec tasks ND
      ((hasDanglingB_eq_false_iff tasks).mp h)
    have hval : validateTasks tasks =
        (match detect_cycles tasks with
          | DetectRes.cycleFound => Verdict.rejected "Dependency cycle detected"
          | DetectRes.noCycle => Verdict.accepted
          | DetectRes.crash => Verdict.crashed
          | DetectRes.outOfFuel => Verdict.outOfFuel) := by
      unfold validateTasks
      rw [hnone]
    constructor
    · intro hrej
      rw [hval] at hrej
      cases hres : detect_cycles tasks with
      | cycleFound => exact hc1.mp hres
      | noCycle =>
        rw [hres] at hrej
        cases hrej
      | crash => exact absurd hres hc3
      | outOfFuel => exact absurd hres hc4
    · intro hcycle
      rw [hval, hc1.mpr hcycle]
  · intro h
    have hnone := checkDeps_none_of_no_dangling h
    obtain ⟨hc1, hc2, hc3, hc4⟩ := detect_cycles_spec tasks ND
      ((hasDanglingB_eq_false_iff tasks).mp h)
    have hval : validateTasks tasks =
        (match detect_cycles tasks with
          | DetectRes.cycleFound => Verdict.rejected "Dependency cycle detected"
          | DetectRes.noCycle => Verdict.accepted
          | DetectRes.crash => Verdict.crashed
          | DetectRes.outOfFuel => Verdict.outOfFuel) := by
      unfold validateTasks
      rw [hnone]
    constructor
    · intro hacc
      rw [hval] at hacc
      cases hres : detect_cycles tasks with
      | cycleFound =>
        rw [hres] at hacc
        cases hacc
      | noCycle => exact hc2.mp hres
      | crash => exact absurd hres hc3
      | outOfFuel => exact absurd hres hc4
    · intro hac
      rw [hval, hc2.mpr hac]

/-- C4 witness: a dangling reference is rejected with the unknown-dependency
message; a 2-node mutual dependency and a self-dependency are rejected as cycles;
a valid DAG with two disconnected components is accepted (and is indeed acyclic). -/
theorem c4_validator_correct_witness :
    (∃ t ∈ exDangling, ∃ d ∈ t.dependencies, d ≠ "" ∧ d ∉ namesOf exDangling ∧
      validateTasks exDangling = Verdict.rejected (unknownDepMsg t.name d)) ∧
    validateTasks exTwoCycle = Verdict.rejected "Dependency cycle detected" ∧
    validateTasks exSelfDep = Verdict.rejected "Dependency cycle detected" ∧
    validateTasks exDag = Verdict.accepted ∧ ¬ HasCycle exDag :=
  ⟨(c4_validator_correct exDangling (by decide)).1 (by rfl),
   ((c4_validator_correct exTwoCycle (by decide)).2.1 (by rfl)).mpr
     ⟨"A", Relation.TransGen.head
       ⟨⟨"A", 1, ["B"], "resolve", []⟩, by decide, rfl, by decide, by decide⟩
       (Relation.TransGen.single
         ⟨⟨"B", 1, ["A"], "resolve", []⟩, by decide, rfl, by decide, by decide⟩)⟩,
   ((c4_validator_correct exSelfDep (by decide)).2.1 (by rfl)).mpr
     ⟨"A", Relation.TransGen.single
       ⟨⟨"A", 1, ["A"], "resolve", []⟩, by decide, rfl, by decide, by decide⟩⟩,
   by rfl,
   ((c4_validator_correct exDag (by decide)).2.2 (by rfl)).mp (by rfl)⟩

/-- C1: counterexample. The two-task graph `[A(5, deps [B]), B(3)]` is acyclic —
`detect_cycles` itself clears it — yet `calculate_expected_runtime` raises a
KeyError on line 108 (modelled as `none`) because the dependent `A` is listed
before its dependency `B`, so the longest-chain value 8 is never returned. This
refutes the claim for arbitrary acyclic graphs. -/
theorem c1_counterexample :
    ¬ HasCycle [cexA, cexB] ∧ calculate_expected_runtime [cexA, cexB] = none :=
  ⟨((detect_cycles_spec [cexA, cexB] (by decide) (by decide)).2.1).mp (by rfl),
   by rfl⟩

theorem split_of_append_singleton {l : List Event} {e : Event} {pre : List Event}
    {a : Event} {post : List Event} (h : l ++ [e] = pre ++ a :: post) :
    (∃ post2, l = pre ++ a :: post2 ∧ post = post2 ++ [e]) ∨
    (pre = l ∧ a = e ∧ post = []) := by
  rcases List.eq_nil_or_concat post with hp | ⟨post2, e2, hp⟩
  · subst hp
    obtain ⟨h1, h2⟩ := List.append_inj' h rfl
    injection h2 with h3 _
    exact Or.inr ⟨h1.symm, h3.symm, rfl⟩
  · rw [List.concat_eq_append] at hp
    subst hp
    have h2 : l ++ [e] = (pre ++ a :: post2) ++ [e2] := by
      rw [h]
      simp
    obtain ⟨h3, h4⟩ := List.append_inj' h2 rfl
    injection h4 with h5 _
    exact Or.inl ⟨post2, h3, by rw [h5]⟩

theorem startIn_cons_self (tr : List Event) (n : String) :
    startIn (tr ++ [Event.start n]) n :=
  ⟨Event.start n, by simp, by simp [isStartEvt]⟩

theorem startIn_mono {tr : List Event} {n : String} (l : List Event)
    (h : startIn tr n) : startIn (tr ++ l) n := by
  obtain ⟨e, he, hp⟩ := h
  exact ⟨e, List.mem_append_left _ he, hp⟩

theorem termIn_mono {tr : List Event} {n : String} (l : List Event)
    (h : termIn tr n) : termIn (tr ++ l) n := by
  obtain ⟨e, he, hp⟩ := h
  exact ⟨e, List.mem_append_left _ he, hp⟩

theorem failedIn_mono {tr : List Event} {n : String} (l : List Event)
    (h : failedIn tr n) : failedIn (tr ++ l) n := by
  obtain ⟨o, ho⟩ := h
  exact ⟨o, List.mem_append_left _ ho⟩

theorem startIn_append_iff {tr : List Event} {e : Event} {n : String} :
    startIn (tr ++ [e]) n ↔ startIn tr n ∨ isStartEvt n e = true := by
  constructor
  · rintro ⟨x, hx, hp⟩
    rcases List.mem_append.mp hx with hm | hm
    · exact Or.inl ⟨x, hm, hp⟩
    · rw [List.mem_singleton.mp hm] at hp
      exact Or.inr hp
  · rintro (⟨x, hx, hp⟩ | hp)
    · exact ⟨x, List.mem_append_left _ hx, hp⟩
    · exact ⟨e, by simp, hp⟩

theorem termIn_append_iff {tr : List Event} {e : Event} {n : String} :
    termIn (tr ++ [e]) n ↔ termIn tr n ∨ isTermEvt n e = true := by
  constructor
  · rintro ⟨x, hx, hp⟩
    rcases List.mem_append.mp hx with hm | hm
    · exact Or.inl ⟨x, hm, hp⟩
    · rw [List.mem_singleton.mp hm] at hp
      exact Or.inr hp
  · rintro (⟨x, hx, hp⟩ | hp)
    · exact ⟨x, List.mem_append_left _ hx, hp⟩
    · exact ⟨e, by simp, hp⟩

theorem isTermEvt_start (n m : String) : isTermEvt n (Event.start m) = false := rfl

theorem isStartEvt_finish (n m : String) (b : Bool) (o : String) :
    isStartEvt n (Event.finish m b o) = false := rfl

theorem isStartEvt_skip (n m c : String) : isStartEvt n (Event.skip m c) = false := rfl

theorem isTermEvt_iff {n m : String} {b : Bool} {o : String} :
    isTermEvt n (Event.finish m b o) = true ↔ m = n := by
  simp [isTermEvt]

theorem isTermEvt_skip_iff {n m c : String} :
    isTermEvt n (Event.skip m c) = true ↔ m = n := by
  simp [isTermEvt]

theorem startCount_append (tr l : List Event) (n : String) :
    startCount (tr ++ l) n = startCount tr n + startCount l n :=
  List.countP_append _ _ _

theorem termCount_append (tr l : List Event) (n : String) :
    termCount (tr ++ l) n = termCount tr n + termCount l n :=
  List.countP_append _ _ _

theorem startCount_eq_zero {tr : List Event} {n : String} (h : ¬ startIn tr n) :
    startCount tr n = 0 := by
  rw [startCount, List.countP_eq_zero]
  intro e he hp
  exact h ⟨e, he, hp⟩

theorem termCount_eq_zero {tr : List Event} {n : String} (h : ¬ termIn tr n) :
    termCount tr n = 0 := by
  rw [termCount, List.countP_eq_zero]
  intro e he hp
  exact h ⟨e, he, hp⟩

theorem termCount_pos {tr : List Event} {n : String} (h : termIn tr n) :
    1 ≤ termCount tr n := by
  obtain ⟨e, he, hp⟩ := h
  rw [termCount]
  exact List.countP_pos_iff.mpr ⟨e, he, hp⟩

theorem sad_append_nonstart {tasks : List Task} {tr : List Event} {e : Event}
    (hsad : StartsAfterDeps tasks tr) (he : ∀ n, e ≠ Event.start n) :
    StartsAfterDeps tasks (tr ++ [e]) := by
  intro pre n post heq t ht htn d hd hdne
  rcases split_of_append_singleton heq with ⟨post2, h1, _⟩ | ⟨_, h2, _⟩
  · exact hsad pre n post2 h1 t ht htn d hd hdne
  · exact absurd h2.symm (he n)

theorem sad_append_start {tasks : List Task} {tr : List Event} {n : String}
    (hsad : StartsAfterDeps tasks tr)
    (hdeps : ∀ t ∈ tasks, t.name = n → ∀ d ∈ t.dependencies, d ≠ "" → termIn tr d) :
    StartsAfterDeps tasks (tr ++ [Event.start n]) := by
  intro pre m post heq t ht htn d hd hdne
  rcases split_of_append_singleton heq with ⟨post2, h1, _⟩ | ⟨h1, h2, _⟩
  · exact hsad pre m post2 h1 t ht htn d hd hdne
  · injection h2.symm with h3
    subst h1
    exact hdeps t ht (by rw [htn, h3]) d hd hdne

theorem nst_append_nonstart {tr : List Event} {e : Event}
    (hnst : NoStartAfterTerm tr) (he : ∀ n, e ≠ Event.start n) :
    NoStartAfterTerm (tr ++ [e]) := by
  intro pre n post heq
  rcases split_of_append_singleton heq with ⟨post2, h1, _⟩ | ⟨_, h2, _⟩
  · exact hnst pre n post2 h1
  · exact absurd h2.symm (he n)

theorem nst_append_start {tr : List Event} {n : String}
    (hnst : NoStartAfterTerm tr) (hterm : ¬ termIn tr n) :
    NoStartAfterTerm (tr ++ [Event.start n]) := by
  intro pre m post heq
  rcases split_of_append_singleton heq with ⟨post2, h1, _⟩ | ⟨h1, h2, _⟩
  · exact hnst pre m post2 h1
  · injection h2.symm with h3
    subst h1
    rw [← h3]
    exact hterm

theorem setAdd_nodup {l : List String} {x : String} (h : l.Nodup) :
    (setAdd l x).Nodup := by
  by_cases hx : x ∈ l
  · simpa [setAdd, hx] using h
  · rw [setAdd_of_not_mem hx]
    exact List.nodup_cons.mpr ⟨hx, h⟩

theorem readyB_iff {completed running : List String} {t : Task} :
    readyB completed running t = true ↔
      t.name ∉ completed ∧ t.name ∉ running ∧
      ∀ d ∈ t.dependencies, d ≠ "" → d ∈ completed := by
  unfold readyB
  simp only [Bool.and_eq_true, Bool.not_eq_true', List.all_eq_true, Bool.or_eq_true,
    beq_iff_eq]
  constructor
  · rintro ⟨⟨h1, h2⟩, h3⟩
    refine ⟨by simpa using h1, by simpa using h2, ?_⟩
    intro d hd hdne
    rcases h3 d hd with he | hm
    · exact absurd he hdne
    · simpa using hm
  · rintro ⟨h1, h2, h3⟩
    refine ⟨⟨by simpa using h1, by simpa using h2⟩, ?_⟩
    intro d hd
    by_cases hdne : d = ""
    · exact Or.inl hdne
    · exact Or.inr (by simpa using h3 d hd hdne)

theorem mem_of_append_singleton {tr : List Event} {x e : Event}
    (he : e ∈ tr ++ [x]) (hne : e ≠ x) : e ∈ tr := by
  rcases List.mem_append.mp he with h | h
  · exact h
  · exact absurd (List.mem_singleton.mp h) hne

theorem startCount_singleton (e : Event) (n : String) :
    startCount [e] n = if isStartEvt n e = true then 1 else 0 := by
  simp [startCount, List.countP_cons]

theorem termCount_singleton (e : Event) (n : String) :
    termCount [e] n = if isTermEvt n e = true then 1 else 0 := by
  simp [termCount, List.countP_cons]

theorem inv_init (tasks : List Task) : Inv tasks initState := by
  constructor
  · intro n
    constructor
    · intro h
      simp [initState] at h
    · rintro ⟨e, he, _⟩
      simp [initState] at he
  · intro n hn
    simp [initState] at hn
  · intro n hn
    simp [initState] at hn
  · intro n hn
    simp [initState] at hn
  · intro n hn
    simp [initState] at hn
  · exact List.nodup_nil
  · rintro n ⟨e, he, _⟩
    simp [initState] at he
  · intro n
    simp [startCount, initState]
  · intro n
    simp [termCount, initState]
  · intro pre n post heq
    have hlen := congrArg List.length heq
    simp [initState] at hlen
    exfalso
    omega
  · intro pre n post heq
    have hlen := congrArg List.length heq
    simp [initState] at hlen
    exfalso
    omega
  · intro t _ hn
    simp [initState] at hn
  · intro n c hmem
    simp [initState] at hmem
  · intro n c hmem
    simp [initState] at hmem
  · intro n
    constructor
    · rintro ⟨o, ho⟩
      simp [initState] at ho
    · intro h
      simp [initState] at h

theorem scanStart_completed (ts : List Task) :
    ∀ s, (scanStart s ts).completed = s.completed := by
  induction ts with
  | nil => intro s; rfl
  | cons t ts ih =>
    intro s
    rw [scanStart]
    split
    · rw [ih]
    · exact ih s

theorem scanStart_outputs (ts : List Task) :
    ∀ s, (scanStart s ts).outputs = s.outputs := by
  induction ts with
  | nil => intro s; rfl
  | cons t ts ih =>
    intro s
    rw [scanStart]
    split
    · rw [ih]
    · exact ih s

theorem scanStart_running_mono (ts : List Task) :
    ∀ s x, x ∈ s.running → x ∈ (scanStart s ts).running := by
  induction ts with
  | nil => intro s x hx; exact hx
  | cons t ts ih =>
    intro s x hx
    rw [scanStart]
    split
    · exact ih _ x (mem_setAdd.mpr (Or.inr hx))
    · exact ih s x hx

theorem scanStart_trace_ext (ts : List Task) :
    ∀ s, ∃ ext, (scanStart s ts).trace = s.trace ++ ext ∧
      ∀ e ∈ ext, ∃ m, e = Event.start m := by
  induction ts with
  | nil => intro s; exact ⟨[], by simp [scanStart], by simp⟩
  | cons t ts ih =>
    intro s
    rw [scanStart]
    split
    · obtain ⟨ext, hext, hall⟩ := ih (SchedState.mk s.completed (setAdd s.running t.name)
        s.outputs (s.trace ++ [Event.start t.name]))
      refine ⟨Event.start t.name :: ext, ?_, ?_⟩
      · rw [hext]
        simp
      · intro e he
        rcases List.mem_cons.mp he with he2 | he2
        · exact ⟨t.name, he2⟩
        · exact hall e he2
    · exact ih s

/-- Starting one ready task preserves the dispatch-loop invariant. -/
theorem start_one_inv {tasks : List Task} (WF : WFNames tasks) {s : SchedState}
    {t : Task} (hInv : Inv tasks s) (ht : t ∈ tasks)
    (hready : readyB s.completed s.running t = true) :
    Inv tasks { s with running := setAdd s.running t.name,
                       trace := s.trace ++ [Event.start t.name] } := by
  obtain ⟨hnc, hnr, hdeps⟩ := readyB_iff.mp hready
  have hnostart : ¬ startIn s.trace t.name := by
    intro hst
    rcases hInv.startLoc t.name hst with h | h
    · exact hnr h
    · exact hnc h
  have hnoterm : ¬ termIn s.trace t.name := fun h => hnc ((hInv.ct t.name).mpr h)
  constructor
  · intro n
    show n ∈ s.completed ↔ termIn (s.trace ++ [Event.start t.name]) n
    rw [termIn_append_iff, isTermEvt_start]
    simp only [Bool.false_eq_true, or_false]
    exact hInv.ct n
  · intro n hn
    rcases mem_setAdd.mp hn with he | hm
    · rw [he]
      exact startIn_cons_self s.trace t.name
    · exact startIn_mono _ (hInv.rs n hm)
  · intro n hn
    rcases mem_setAdd.mp hn with he | hm
    · rw [he]
      exact hnc
    · exact hInv.rc n hm
  · exact hInv.csub
  · intro n hn
    rcases mem_setAdd.mp hn with he | hm
    · rw [he]
      exact List.mem_map_of_mem Task.name ht
    · exact hInv.rsub n hm
  · exact hInv.cnd
  · intro n hn
    rcases startIn_append_iff.mp hn with h | h
    · rcases hInv.startLoc n h with h2 | h2
      · exact Or.inl (mem_setAdd.mpr (Or.inr h2))
      · exact Or.inr h2
    · have he : t.name = n := by simpa [isStartEvt] using h
      exact Or.inl (mem_setAdd.mpr (Or.inl he.symm))
  · intro n
    show startCount (s.trace ++ [Event.start t.name]) n ≤ 1
    rw [startCount_append, startCount_singleton]
    by_cases he : t.name = n
    · subst he
      rw [startCount_eq_zero hnostart]
      simp [isStartEvt]
    · have hb : isStartEvt n (Event.start t.name) = false := by
        simpa [isStartEvt] using he
      rw [hb]
      simpa using hInv.startOnce n
  · intro n
    show termCount (s.trace ++ [Event.start t.name]) n ≤ 1
    rw [termCount_append, termCount_singleton, isTermEvt_start]
    simpa using hInv.termOnce n
  · show StartsAfterDeps tasks (s.trace ++ [Event.start t.name])
    apply sad_append_start hInv.sad
    intro t2 ht2 htn d hd hdne
    have he : t2 = t := name_inj WF.1 ht2 ht htn
    subst he
    exact (hInv.ct d).mp (hdeps d hd hdne)
  · exact nst_append_start hInv.nst hnoterm
  · intro t2 ht2 hn d hd hdne
    rcases mem_setAdd.mp hn with he | hm
    · have he2 : t2 = t := name_inj WF.1 ht2 ht he
      subst he2
      exact hdeps d hd hdne
    · exact hInv.runDeps t2 ht2 hm d hd hdne
  · intro n c hmem
    have hmem2 : Event.skip n c ∈ s.trace :=
      mem_of_append_singleton hmem (by simp)
    obtain ⟨h1, h2⟩ := hInv.skipCause n c hmem2
    exact ⟨h1, failedIn_mono _ h2⟩
  · intro n c hmem
    exact hInv.skipOut n c (mem_of_append_singleton hmem (by simp))
  · exact hInv.outDom

theorem scanStart_inv (tasks : List Task) (WF : WFNames tasks) :
    ∀ ts s, (∀ x ∈ ts, x ∈ tasks) → Inv tasks s → Inv tasks (scanStart s ts) := by
  intro ts
  induction ts with
  | nil =>
    intro s _ hInv
    exact hInv
  | cons t ts ih =>
    intro s hsub hInv
    rw [scanStart]
    split
    · rename_i hready
      exact ih _ (fun x hx => hsub x (List.mem_cons_of_mem _ hx))
        (start_one_inv WF hInv (hsub t (by simp)) hready)
    · exact ih s (fun x hx => hsub x (List.mem_cons_of_mem _ hx)) hInv

theorem name_ne_empty {tasks : List Task} (WF : WFNames tasks) {n : String}
    (h : n ∈ namesOf tasks) : n ≠ "" := by
  obtain ⟨t, ht, htn⟩ := List.mem_map.mp h
  rw [← htn]
  exact WF.2 t ht

/-- Force-skipping one not-yet-terminal dependent of a failed task preserves the
invariant. -/
theorem skip_one_inv {tasks : List Task} {s : SchedState}
    {t : Task} {name : String} (hInv : Inv tasks s) (ht : t ∈ tasks)
    (hdep : name ∈ t.dependencies) (hnc : t.name ∉ s.completed)
    (hfail : failedIn s.trace name)
    (hnrun : ∀ u ∈ tasks, name ∈ u.dependencies → u.name ∉ s.running)
    (hne : name ≠ "") :
    Inv tasks { s with completed := setAdd s.completed t.name,
                       outputs := dictUpd s.outputs t.name
                         ("Skipped due to failure in " ++ name),
                       trace := s.trace ++ [Event.skip t.name name] } := by
  have hnoterm : ¬ termIn s.trace t.name := fun h => hnc ((hInv.ct t.name).mpr h)
  have hnotrun : t.name ∉ s.running := hnrun t ht hdep
  have hfresh : ¬ ∃ o, (t.name, o) ∈ s.outputs := fun h =>
    hnc ((hInv.outDom t.name).mp h)
  have hlk : s.outputs.lookup t.name = none := by
    cases h : s.outputs.lookup t.name with
    | none => rfl
    | some v => exact absurd ⟨v, lookup_mem h⟩ hfresh
  have hupd : dictUpd s.outputs t.name ("Skipped due to failure in " ++ name) =
      s.outputs ++ [(t.name, "Skipped due to failure in " ++ name)] := by
    unfold dictUpd
    rw [hlk]
    rfl
  constructor
  · intro n
    constructor
    · intro hmem
      rcases mem_setAdd.mp hmem with he | hm
      · exact termIn_append_iff.mpr (Or.inr (isTermEvt_skip_iff.mpr he.symm))
      · exact termIn_mono _ ((hInv.ct n).mp hm)
    · intro hterm
      rcases termIn_append_iff.mp hterm with h | h
      · exact mem_setAdd.mpr (Or.inr ((hInv.ct n).mpr h))
      · exact mem_setAdd.mpr (Or.inl (isTermEvt_skip_iff.mp h).symm)
  · intro n hn
    exact startIn_mono _ (hInv.rs n hn)
  · intro n hn
    intro hmem
    rcases mem_setAdd.mp hmem with he | hm
    · rw [he] at hn
      exact hnotrun hn
    · exact hInv.rc n hn hm
  · intro n hn
    rcases mem_setAdd.mp hn with he | hm
    · rw [he]
      exact List.mem_map_of_mem Task.name ht
    · exact hInv.csub n hm
  · exact hInv.rsub
  · exact setAdd_nodup hInv.cnd
  · intro n hn
    rcases startIn_append_iff.mp hn with h | h
    · rcases hInv.startLoc n h with h2 | h2
      · exact Or.inl h2
      · exact Or.inr (mem_setAdd.mpr (Or.inr h2))
    · rw [isStartEvt_skip] at h
      cases h
  · intro n
    show startCount (s.trace ++ [Event.skip t.name name]) n ≤ 1
    rw [startCount_append, startCount_singleton, isStartEvt_skip]
    simpa using hInv.startOnce n
  · intro n
    show termCount (s.trace ++ [Event.skip t.name name]) n ≤ 1
    rw [termCount_append, termCount_singleton]
    by_cases he : t.name = n
    · subst he
      rw [termCount_eq_zero hnoterm]
      simp [isTermEvt]
    · have hb : isTermEvt n (Event.skip t.name name) = false := by
        simpa [isTermEvt] using he
      rw [hb]
      simpa using hInv.termOnce n
  · exact sad_append_nonstart hInv.sad (by intro k; simp)
  · exact nst_append_nonstart hInv.nst (by intro k; simp)
  · intro t2 ht2 hn d hd hdne
    exact mem_setAdd.mpr (Or.inr (hInv.runDeps t2 ht2 hn d hd hdne))
  · intro n c hmem
    rcases List.mem_append.mp hmem with h | h
    · obtain ⟨h1, h2⟩ := hInv.skipCause n c h
      exact ⟨h1, failedIn_mono _ h2⟩
    · have he := List.mem_singleton.mp h
      injection he with h1 h2
      subst h1
      subst h2
      exact ⟨⟨t, ht, rfl, hdep, hne⟩, failedIn_mono _ hfail⟩
  · intro n c hmem
    rw [hupd]
    rcases List.mem_append.mp hmem with h | h
    · exact List.mem_append_left _ (hInv.skipOut n c h)
    · have he := List.mem_singleton.mp h
      injection he with h1 h2
      subst h1
      subst h2
      exact List.mem_append_right _ (by simp)
  · intro n
    rw [hupd]
    constructor
    · rintro ⟨o, ho⟩
      rcases List.mem_append.mp ho with h | h
      · exact mem_setAdd.mpr (Or.inr ((hInv.outDom n).mp ⟨o, h⟩))
      · have he := List.mem_singleton.mp h
        injection he with h1 _
        exact mem_setAdd.mpr (Or.inl h1)
    · intro hmem
      rcases mem_setAdd.mp hmem with he | hm
      · exact ⟨"Skipped due to failure in " ++ name, List.mem_append_right _ (by rw [he]; simp)⟩
      · obtain ⟨o, ho⟩ := (hInv.outDom n).mpr hm
        exact ⟨o, List.mem_append_left _ ho⟩

/-- The skip cascade (lines 204-209): invariant preservation plus the facts the
failure-cascade claims need. -/
theorem cascade_spec (tasks : List Task) (name : String) :
    ∀ ts s, (∀ x ∈ ts, x ∈ tasks) → Inv tasks s →
      failedIn s.trace name →
      (∀ u ∈ tasks, name ∈ u.dependencies → u.name ∉ s.running) →
      name ≠ "" →
      Inv tasks (cascade name s ts) ∧
      (cascade name s ts).running = s.running ∧
      (∀ x ∈ s.completed, x ∈ (cascade name s ts).completed) ∧
      (∃ ext, (cascade name s ts).trace = s.trace ++ ext) ∧
      (∀ p ∈ s.outputs, p ∈ (cascade name s ts).outputs) ∧
      (∀ t ∈ ts, name ∈ t.dependencies →
        t.name ∈ (cascade name s ts).completed ∧
        (Event.skip t.name name ∈ (cascade name s ts).trace ∨ t.name ∈ s.completed) ∧
        ((t.name, "Skipped due to failure in " ++ name) ∈ (cascade name s ts).outputs ∨
          t.name ∈ s.completed)) := by
  intro ts
  induction ts with
  | nil =>
    intro s _ hInv _ _ _
    exact ⟨hInv, rfl, fun x hx => hx, ⟨[], by simp [cascade]⟩, fun p hp => hp, by simp⟩
  | cons t ts ih =>
    intro s hsub hInv hfail hnrun hne
    rw [cascade]
    split
    · rename_i hcond
      rw [Bool.and_eq_true] at hcond
      have hdep : name ∈ t.dependencies := by simpa using hcond.1
      have hnc : t.name ∉ s.completed := by simpa using hcond.2
      have ht : t ∈ tasks := hsub t (by simp)
      have hInv2 := skip_one_inv hInv ht hdep hnc hfail hnrun hne
      have hlk : s.outputs.lookup t.name = none := by
        cases h : s.outputs.lookup t.name with
        | none => rfl
        | some v =>
          exact absurd ((hInv.outDom t.name).mp ⟨v, lookup_mem h⟩) hnc
      have hupd : dictUpd s.outputs t.name ("Skipped due to failure in " ++ name) =
          s.outputs ++ [(t.name, "Skipped due to failure in " ++ name)] := by
        unfold dictUpd
        rw [hlk]
        rfl
      obtain ⟨c1, c2, c3, ⟨ext, hext⟩, c5, c6⟩ := ih
        (SchedState.mk (setAdd s.completed t.name) s.running
          (dictUpd s.outputs t.name ("Skipped due to failure in " ++ name))
          (s.trace ++ [Event.skip t.name name]))
        (fun x hx => hsub x (List.mem_cons_of_mem _ hx)) hInv2
        (failedIn_mono _ hfail) (fun u hu hud => hnrun u hu hud) hne
      refine ⟨c1, c2, ?_, ?_, ?_, ?_⟩
      · intro x hx
        exact c3 x (mem_setAdd.mpr (Or.inr hx))
      · exact ⟨Event.skip t.name name :: ext, by rw [hext]; simp⟩
      · intro p hp
        apply c5
        rw [hupd]
        exact List.mem_append_left _ hp
      · intro u hu hud
        rcases List.mem_cons.mp hu with he | hm
        · subst he
          refine ⟨c3 u.name (mem_setAdd.mpr (Or.inl rfl)), ?_, ?_⟩
          · left
            obtain ⟨ext2, hext2⟩ : ∃ e2, (cascade name (SchedState.mk
                (setAdd s.completed u.name) s.running
                (dictUpd s.outputs u.name ("Skipped due to failure in " ++ name))
                (s.trace ++ [Event.skip u.name name])) ts).trace =
                (s.trace ++ [Event.skip u.name name]) ++ e2 := ⟨ext, hext⟩
            rw [hext2]
            exact List.mem_append_left _ (List.mem_append_right _ (by simp))
          · left
            apply c5
            rw [hupd]
            exact List.mem_append_right _ (by simp)
        · obtain ⟨d1, d2, d3⟩ := c6 u hm hud
          refine ⟨d1, ?_, ?_⟩
          · rcases d2 with h | h
            · exact Or.inl h
            · rcases mem_setAdd.mp h with he2 | hm2
              · left
                rw [hext]
                exact List.mem_append_left _ (List.mem_append_right _ (by rw [he2]; simp))
              · exact Or.inr hm2
          · rcases d3 with h | h
            · exact Or.inl h
            · rcases mem_setAdd.mp h with he2 | hm2
              · left
                apply c5
                rw [hupd]
                exact List.mem_append_right _ (by rw [he2]; simp)
              · exact Or.inr hm2
    · rename_i hcond
      have hcond2 : name ∉ t.dependencies ∨ t.name ∈ s.completed := by
        by_cases hd : name ∈ t.dependencies
        · by_cases hc : t.name ∈ s.completed
          · exact Or.inr hc
          · exact absurd (by simp [hd, hc]) hcond
        · exact Or.inl hd
      obtain ⟨c1, c2, c3, c4, c5, c6⟩ := ih s
        (fun x hx => hsub x (List.mem_cons_of_mem _ hx)) hInv hfail hnrun hne
      refine ⟨c1, c2, c3, c4, c5, ?_⟩
      intro u hu hud
      rcases List.mem_cons.mp hu with he | hm
      · subst he
        have hmem : u.name ∈ s.completed := by
          rcases hcond2 with h | h
          · exact absurd hud h
          · exact h
        exact ⟨c3 u.name hmem, Or.inr hmem, Or.inr hmem⟩
      · exact c6 u hm hud

/-- Retiring one running future (lines 195-202), recording its outcome, preserves
the invariant. -/
theorem finish_one_inv {tasks : List Task} {s : SchedState} {name : String}
    (hInv : Inv tasks s) (hrun : name ∈ s.running) (b : Bool) (o : String) :
    Inv tasks (SchedState.mk (setAdd s.completed name) (setRemove s.running name)
      (dictUpd s.outputs name o) (s.trace ++ [Event.finish name b o])) := by
  have hnc : name ∉ s.completed := hInv.rc name hrun
  have hnoterm : ¬ termIn s.trace name := fun h => hnc ((hInv.ct name).mpr h)
  have hfresh : ¬ ∃ v, (name, v) ∈ s.outputs := fun h => hnc ((hInv.outDom name).mp h)
  have hlk : s.outputs.lookup name = none := by
    cases h : s.outputs.lookup name with
    | none => rfl
    | some v => exact absurd ⟨v, lookup_mem h⟩ hfresh
  have hupd : dictUpd s.outputs name o = s.outputs ++ [(name, o)] := by
    unfold dictUpd
    rw [hlk]
    rfl
  constructor
  · intro n
    constructor
    · intro hmem
      rcases mem_setAdd.mp hmem with he | hm
      · exact termIn_append_iff.mpr (Or.inr (isTermEvt_iff.mpr he.symm))
      · exact termIn_mono _ ((hInv.ct n).mp hm)
    · intro hterm
      rcases termIn_append_iff.mp hterm with h | h
      · exact mem_setAdd.mpr (Or.inr ((hInv.ct n).mpr h))
      · exact mem_setAdd.mpr (Or.inl (isTermEvt_iff.mp h).symm)
  · intro n hn
    exact startIn_mono _ (hInv.rs n (mem_setRemove.mp hn).1)
  · intro n hn hmem
    obtain ⟨hn1, hn2⟩ := mem_setRemove.mp hn
    rcases mem_setAdd.mp hmem with he | hm
    · exact hn2 he
    · exact hInv.rc n hn1 hm
  · intro n hn
    rcases mem_setAdd.mp hn with he | hm
    · rw [he]
      exact hInv.rsub name hrun
    · exact hInv.csub n hm
  · intro n hn
    exact hInv.rsub n (mem_setRemove.mp hn).1
  · exact setAdd_nodup hInv.cnd
  · intro n hn
    rcases startIn_append_iff.mp hn with h | h
    · rcases hInv.startLoc n h with h2 | h2
      · by_cases he : n = name
        · exact Or.inr (mem_setAdd.mpr (Or.inl he))
        · exact Or.inl (mem_setRemove.mpr ⟨h2, he⟩)
      · exact Or.inr (mem_setAdd.mpr (Or.inr h2))
    · rw [isStartEvt_finish] at h
      cases h
  · intro n
    show startCount (s.trace ++ [Event.finish name b o]) n ≤ 1
    rw [startCount_append, startCount_singleton, isStartEvt_finish]
    simpa using hInv.startOnce n
  · intro n
    show termCount (s.trace ++ [Event.finish name b o]) n ≤ 1
    rw [termCount_append, termCount_singleton]
    by_cases he : name = n
    · subst he
      rw [termCount_eq_zero hnoterm]
      simp [isTermEvt]
    · have hb : isTermEvt n (Event.finish name b o) = false := by
        simpa [isTermEvt] using he
      rw [hb]
      simpa using hInv.termOnce n
  · exact sad_append_nonstart hInv.sad (by intro k; simp)
  · exact nst_append_nonstart hInv.nst (by intro k; simp)
  · intro t2 ht2 hn d hd hdne
    exact mem_setAdd.mpr (Or.inr (hInv.runDeps t2 ht2 (mem_setRemove.mp hn).1 d hd hdne))
  · intro n c hmem
    have hne2 : Event.skip n c ≠ Event.finish name b o := by simp
    obtain ⟨h1, h2⟩ := hInv.skipCause n c (mem_of_append_singleton hmem hne2)
    exact ⟨h1, failedIn_mono _ h2⟩
  · intro n c hmem
    have hne2 : Event.skip n c ≠ Event.finish name b o := by simp
    rw [hupd]
    exact List.mem_append_left _ (hInv.skipOut n c (mem_of_append_singleton hmem hne2))
  · intro n
    rw [hupd]
    constructor
    · rintro ⟨v, hv⟩
      rcases List.mem_append.mp hv with h | h
      · exact mem_setAdd.mpr (Or.inr ((hInv.outDom n).mp ⟨v, h⟩))
      · have he := List.mem_singleton.mp h
        injection he with h1 _
        exact mem_setAdd.mpr (Or.inl h1)
    · intro hmem
      rcases mem_setAdd.mp hmem with he | hm
      · exact ⟨o, List.mem_append_right _ (by rw [he]; simp)⟩
      · obtain ⟨v, hv⟩ := (hInv.outDom n).mpr hm
        exact ⟨v, List.mem_append_left _ hv⟩

/-- `finishOne` on a running future unfolds to the success/failure case split over
the one-step state update. -/
theorem finishOne_eq_of_running {tasks : List Task} {exec : String → Bool × String}
    {s : SchedState} {name : String} (hc : s.running.contains name = true) :
    finishOne tasks exec s name =
      (if (exec name).1 = true then
        SchedState.mk (setAdd s.completed name) (setRemove s.running name)
          (dictUpd s.outputs name (exec name).2)
          (s.trace ++ [Event.finish name (exec name).1 (exec name).2])
      else cascade name
        (SchedState.mk (setAdd s.completed name) (setRemove s.running name)
          (dictUpd s.outputs name (exec name).2)
          (s.trace ++ [Event.finish name (exec name).1 (exec name).2])) tasks) := by
  unfold finishOne
  rw [hc]
  rfl

/-- Retiring one future (lines 195-209, cascade included) preserves the invariant;
`completed` grows, `running` shrinks, the trace extends, outputs grow. -/
theorem finishOne_spec (tasks : List Task) (exec : String → Bool × String)
    (s : SchedState) (name : String) (WF : WFNames tasks) (hInv : Inv tasks s) :
    Inv tasks (finishOne tasks exec s name) ∧
    (∀ x ∈ s.completed, x ∈ (finishOne tasks exec s name).completed) ∧
    (∀ x ∈ (finishOne tasks exec s name).running, x ∈ s.running) ∧
    (∃ ext, (finishOne tasks exec s name).trace = s.trace ++ ext) ∧
    (∀ p ∈ s.outputs, p ∈ (finishOne tasks exec s name).outputs) := by
  by_cases hmem : name ∈ s.running
  case neg =>
    have hc : s.running.contains name = false := by simpa using hmem
    have hid : finishOne tasks exec s name = s := by
      unfold finishOne
      rw [hc]
      rfl
    rw [hid]
    exact ⟨hInv, fun x hx => hx, fun x hx => hx, ⟨[], by simp⟩, fun p hp => hp⟩
  case pos =>
    have hc : s.running.contains name = true := by simpa using hmem
    have hnc : name ∉ s.completed := hInv.rc name hmem
    have hlk : s.outputs.lookup name = none := by
      cases h : s.outputs.lookup name with
      | none => rfl
      | some v => exact absurd ((hInv.outDom name).mp ⟨v, lookup_mem h⟩) hnc
    have hupd : dictUpd s.outputs name (exec name).2 =
        s.outputs ++ [(name, (exec name).2)] := by
      unfold dictUpd
      rw [hlk]
      rfl
    have hInv1 : Inv tasks (SchedState.mk (setAdd s.completed name)
        (setRemove s.running name) (dictUpd s.outputs name (exec name).2)
        (s.trace ++ [Event.finish name (exec name).1 (exec name).2])) :=
      finish_one_inv hInv hmem (exec name).1 (exec name).2
    rw [finishOne_eq_of_running hc]
    by_cases hres : (exec name).1 = true
    · rw [if_pos hres]
      refine ⟨hInv1, ?_, ?_, ?_, ?_⟩
      · intro x hx
        exact mem_setAdd.mpr (Or.inr hx)
      · intro x hx
        exact (mem_setRemove.mp hx).1
      · exact ⟨[Event.finish name (exec name).1 (exec name).2], rfl⟩
      · intro p hp
        show p ∈ dictUpd s.outputs name (exec name).2
        rw [hupd]
        exact List.mem_append_left _ hp
    · rw [if_neg hres]
      have hresF : (exec name).1 = false := by
        cases h : (exec name).1
        · rfl
        · exact absurd h hres
      have hne : name ≠ "" := name_ne_empty WF (hInv.rsub name hmem)
      have hfailtr : failedIn (s.trace ++
          [Event.finish name (exec name).1 (exec name).2]) name := by
        refine ⟨(exec name).2, ?_⟩
        rw [hresF]
        exact List.mem_append_right _ (by simp)
      have hnrun1 : ∀ u ∈ tasks, name ∈ u.dependencies →
          u.name ∉ setRemove s.running name := by
        intro u hu hud hmem2
        obtain ⟨hur, _⟩ := mem_setRemove.mp hmem2
        exact hnc (hInv.runDeps u hu hur name hud hne)
      obtain ⟨c1, c2, c3, ⟨ext, hext⟩, c5, _⟩ := cascade_spec tasks name tasks
        (SchedState.mk (setAdd s.completed name) (setRemove s.running name)
          (dictUpd s.outputs name (exec name).2)
          (s.trace ++ [Event.finish name (exec name).1 (exec name).2]))
        (fun x hx => hx) hInv1 hfailtr hnrun1 hne
      refine ⟨c1, ?_, ?_, ?_, ?_⟩
      · intro x hx
        exact c3 x (mem_setAdd.mpr (Or.inr hx))
      · intro x hx
        rw [c2] at hx
        exact (mem_setRemove.mp hx).1
      · exact ⟨Event.finish name (exec name).1 (exec name).2 :: ext, by rw [hext]; simp⟩
      · intro p hp
        apply c5
        show p ∈ dictUpd s.outputs name (exec name).2
        rw [hupd]
        exact List.mem_append_left _ hp

/-- Only the failed task itself and its not-yet-terminal direct dependents enter
`completed` during a cascade; everything else is untouched. -/
theorem cascade_completed_sub (name : String) :
    ∀ ts s x, x ∈ (cascade name s ts).completed →
      x ∈ s.completed ∨ ∃ t ∈ ts, t.name = x ∧ name ∈ t.dependencies := by
  intro ts
  induction ts with
  | nil =>
    intro s x hx
    exact Or.inl (by simpa [cascade] using hx)
  | cons t ts ih =>
    intro s x hx
    rw [cascade] at hx
    split at hx
    · rename_i hcond
      rw [Bool.and_eq_true] at hcond
      rcases ih _ x hx with h | ⟨u, hu, h1, h2⟩
      · rcases mem_setAdd.mp h with he | hm
        · exact Or.inr ⟨t, by simp, he.symm, by simpa using hcond.1⟩
        · exact Or.inl hm
      · exact Or.inr ⟨u, List.mem_cons_of_mem _ hu, h1, h2⟩
    · rcases ih s x hx with h | ⟨u, hu, h1, h2⟩
      · exact Or.inl h
      · exact Or.inr ⟨u, List.mem_cons_of_mem _ hu, h1, h2⟩

/-- When the retired future failed, every not-yet-terminal direct dependent is
skipped in the same step: skip event, skip output, and terminal marking. -/
theorem finishOne_cascades (tasks : List Task) (exec : String → Bool × String)
    (s : SchedState) (name : String) (WF : WFNames tasks) (hInv : Inv tasks s)
    (hrun : name ∈ s.running) (hfail : (exec name).1 = false) :
    ∀ t ∈ tasks, name ∈ t.dependencies → t.name ∉ s.completed →
      Event.skip t.name name ∈ (finishOne tasks exec s name).trace ∧
      (t.name, "Skipped due to failure in " ++ name) ∈
        (finishOne tasks exec s name).outputs ∧
      t.name ∈ (finishOne tasks exec s name).completed := by
  have hc : s.running.contains name = true := by simpa using hrun
  have hnc : name ∉ s.completed := hInv.rc name hrun
  have hne : name ≠ "" := name_ne_empty WF (hInv.rsub name hrun)
  have hInv1 : Inv tasks (SchedState.mk (setAdd s.completed name)
      (setRemove s.running name) (dictUpd s.outputs name (exec name).2)
      (s.trace ++ [Event.finish name (exec name).1 (exec name).2])) :=
    finish_one_inv hInv hrun (exec name).1 (exec name).2
  have hfailtr : failedIn (s.trace ++
      [Event.finish name (exec name).1 (exec name).2]) name := by
    refine ⟨(exec name).2, ?_⟩
    rw [hfail]
    exact List.mem_append_right _ (by simp)
  have hnrun1 : ∀ u ∈ tasks, name ∈ u.dependencies →
      u.name ∉ setRemove s.running name := by
    intro u hu hud hmem2
    obtain ⟨hur, _⟩ := mem_setRemove.mp hmem2
    exact hnc (hInv.runDeps u hu hur name hud hne)
  obtain ⟨_, _, _, _, _, c6⟩ := cascade_spec tasks name tasks
    (SchedState.mk (setAdd s.completed name) (setRemove s.running name)
      (dictUpd s.outputs name (exec name).2)
      (s.trace ++ [Event.finish name (exec name).1 (exec name).2]))
    (fun x hx => hx) hInv1 hfailtr hnrun1 hne
  intro t ht hdep hnc2
  have hres : ¬ (exec name).1 = true := by
    rw [hfail]
    exact Bool.false_ne_true
  have heq : finishOne tasks exec s name = cascade name
      (SchedState.mk (setAdd s.completed name) (setRemove s.running name)
        (dictUpd s.outputs name (exec name).2)
        (s.trace ++ [Event.finish name (exec name).1 (exec name).2])) tasks := by
    rw [finishOne_eq_of_running hc, if_neg hres]
  obtain ⟨d1, d2, d3⟩ := c6 t ht hdep
  have hnotAdd : t.name ∉ setAdd s.completed name := by
    intro hmem2
    rcases mem_setAdd.mp hmem2 with he | hm
    · exact hnc (hInv.runDeps t ht (he ▸ hrun) name hdep hne)
    · exact hnc2 hm
  rw [heq]
  refine ⟨?_, ?_, d1⟩
  · rcases d2 with h | h
    · exact h
    · exact absurd h hnotAdd
  · rcases d3 with h | h
    · exact h
    · exact absurd h hnotAdd

/-- One iteration of the `while` loop preserves the invariant. -/
theorem loopIter_inv (tasks : List Task) (exec : String → Bool × String)
    (done : List String) (s : SchedState) (WF : WFNames tasks)
    (hInv : Inv tasks s) : Inv tasks (loopIter tasks exec s done) := by
  rw [loopIter]
  have h0 : Inv tasks (scanStart s tasks) :=
    scanStart_inv tasks WF tasks s (fun x hx => hx) hInv
  revert h0
  generalize scanStart s tasks = s0
  induction done generalizing s0 with
  | nil =>
    intro h0
    exact h0
  | cons d ds ih =>
    intro h0
    rw [List.foldl_cons]
    exact ih _ (finishOne_spec tasks exec s0 d WF h0).1

/-- Every state the dispatch loop can reach satisfies the invariant. -/
theorem schedExec_inv (tasks : List Task) (exec : String → Bool × String)
    (batches : List (List String)) (WF : WFNames tasks) :
    Inv tasks (schedExec tasks exec batches) := by
  rw [schedExec]
  have h : ∀ s, Inv tasks s → Inv tasks (batches.foldl (loopIter tasks exec) s) := by
    induction batches with
    | nil => exact fun s hs => hs
    | cons b bs ih =>
      intro s hs
      rw [List.foldl_cons]
      exact ih _ (loopIter_inv tasks exec b s WF hs)
  exact h initState (inv_init tasks)

/-- If the guarded loop exits normally, the final state satisfies the invariant and
the exit guard: at least as many completions as tasks. -/
theorem runLoop_inv (tasks : List Task) (exec : String → Bool × String)
    (WF : WFNames tasks) :
    ∀ batches s s2, Inv tasks s → runLoop tasks exec batches s = some s2 →
      Inv tasks s2 ∧ tasks.length ≤ s2.completed.length := by
  intro batches
  induction batches with
  | nil =>
    intro s s2 hInv hrun
    rw [runLoop] at hrun
    split at hrun
    · cases hrun
    · rename_i hlen
      injection hrun with h
      subst h
      exact ⟨hInv, by omega⟩
  | cons b bs ih =>
    intro s s2 hInv hrun
    rw [runLoop] at hrun
    split at hrun
    · exact ih _ s2 (loopIter_inv tasks exec b s WF hInv) hrun
    · rename_i hlen
      injection hrun with h
      subst h
      exact ⟨hInv, by omega⟩

/-- With the exit guard and the invariant, every task of the list is completed. -/
theorem completed_all {tasks : List Task} {s : SchedState}
    (hInv : Inv tasks s) (hlen : tasks.length ≤ s.completed.length) :
    ∀ t ∈ tasks, t.name ∈ s.completed := by
  intro t ht
  by_contra hnm
  have hsub : s.completed ⊆ (namesOf tasks).erase t.name := by
    intro x hx
    have hx2 : x ∈ namesOf tasks := hInv.csub x hx
    have hxne : x ≠ t.name := fun he => hnm (he ▸ hx)
    exact (List.mem_erase_of_ne hxne).mpr hx2
  have h1 : s.completed.length ≤ ((namesOf tasks).erase t.name).length :=
    List.Subperm.length_le (List.Nodup.subperm hInv.cnd hsub)
  have h2 : ((namesOf tasks).erase t.name).length = (namesOf tasks).length - 1 :=
    List.length_erase_of_mem (List.mem_map_of_mem Task.name ht)
  have h3 : (namesOf tasks).length = tasks.length := by
    simp [namesOf]
  have h4 : 0 < tasks.length := List.length_pos.mpr (List.ne_nil_of_mem ht)
  omega

/-- A pending task whose nonempty dependencies are all completed is started by the
readiness scan of lines 185-191. -/
theorem scanStart_submits {t : Task} :
    ∀ ts s, (namesOf ts).Nodup → t ∈ ts → t.name ∉ s.completed →
      t.name ∉ s.running → (∀ d ∈ t.dependencies, d ≠ "" → d ∈ s.completed) →
      t.name ∈ (scanStart s ts).running ∧ startIn (scanStart s ts).trace t.name := by
  intro ts
  induction ts with
  | nil =>
    intro s _ ht
    exact absurd ht (List.not_mem_nil t)
  | cons u ts ih =>
    intro s hnd ht hnc hnr hdeps
    have hnd2 : (namesOf ts).Nodup ∧ u.name ∉ namesOf ts := by
      have h := List.nodup_cons.mp (show (u.name :: namesOf ts).Nodup from hnd)
      exact ⟨h.2, h.1⟩
    rw [scanStart]
    rcases List.mem_cons.mp ht with he | hm
    · subst he
      have hready : readyB s.completed s.running t = true :=
        readyB_iff.mpr ⟨hnc, hnr, hdeps⟩
      rw [if_pos hready]
      constructor
      · exact scanStart_running_mono ts _ t.name (mem_setAdd.mpr (Or.inl rfl))
      · obtain ⟨ext, hext, _⟩ := scanStart_trace_ext ts
          (SchedState.mk s.completed (setAdd s.running t.name) s.outputs
            (s.trace ++ [Event.start t.name]))
        rw [hext]
        exact startIn_mono _ ⟨Event.start t.name, by simp, by simp [isStartEvt]⟩
    · have hnu : u.name ≠ t.name := by
        intro he2
        exact hnd2.2 (he2 ▸ List.mem_map_of_mem Task.name hm)
      split
      · refine ih _ hnd2.1 hm hnc ?_ hdeps
        intro hmem2
        rcases mem_setAdd.mp hmem2 with he2 | hm2
        · exact hnu he2.symm
        · exact hnr hm2
      · exact ih s hnd2.1 hm hnc hnr hdeps

/-- C2: during a run, a task never transitions to Running before every one of its
dependencies has reached a terminal state — in every reachable state of the
dispatch loop the trace satisfies the starts-after-deps temporal property, and
every currently running task has all of its nonempty dependencies already in the
completed (terminal) set, with a terminal event in the trace. -/
theorem c2_start_after_deps (tasks : List Task) (exec : String → Bool × String)
    (batches : List (List String)) (WF : WFNames tasks) :
    StartsAfterDeps tasks (schedExec tasks exec batches).trace ∧
    (∀ t ∈ tasks, t.name ∈ (schedExec tasks exec batches).running →
      ∀ d ∈ t.dependencies, d ≠ "" →
        d ∈ (schedExec tasks exec batches).completed ∧
        termIn (schedExec tasks exec batches).trace d) := by
  have hInv := schedExec_inv tasks exec batches WF
  refine ⟨hInv.sad, ?_⟩
  intro t ht hn d hd hdne
  have hc := hInv.runDeps t ht hn d hd hdne
  exact ⟨hc, (hInv.ct d).mp hc⟩

theorem c2_start_after_deps_witness :
    StartsAfterDeps exChain (schedExec exChain execOk [["A"], ["B"], ["C"]]).trace ∧
    (∀ t ∈ exChain, t.name ∈ (schedExec exChain execOk [["A"], ["B"], ["C"]]).running →
      ∀ d ∈ t.dependencies, d ≠ "" →
        d ∈ (schedExec exChain execOk [["A"], ["B"], ["C"]]).completed ∧
        termIn (schedExec exChain execOk [["A"], ["B"], ["C"]]).trace d) :=
  c2_start_after_deps exChain execOk [["A"], ["B"], ["C"]] ⟨by decide, by decide⟩

/-- C3: when the running task `name` fails, every task listing it as a direct
dependency that has not yet reached a terminal state is immediately skipped —
terminal-marked in `completed`, with a skip event recording the triggering
failure and the skip output recorded — and it was never submitted before; since
no start event ever follows a terminal event, it is never submitted afterwards
either. Tasks not depending on `name` are untouched by the cascade and keep
running or stay schedulable. -/
theorem c3_failure_cascade (tasks : List Task) (exec : String → Bool × String)
    (s : SchedState) (name : String) (WF : WFNames tasks)
    (hreach : Reachable tasks exec s) (hrun : name ∈ s.running)
    (hfail : (exec name).1 = false) :
    (∀ t ∈ tasks, name ∈ t.dependencies → t.name ∉ s.completed →
      Event.skip t.name name ∈ (finishOne tasks exec s name).trace ∧
      (t.name, "Skipped due to failure in " ++ name) ∈
        (finishOne tasks exec s name).outputs ∧
      t.name ∈ (finishOne tasks exec s name).completed ∧
      ¬ startIn s.trace t.name) ∧
    NoStartAfterTerm (finishOne tasks exec s name).trace ∧
    (∀ t ∈ tasks, name ∉ t.dependencies → t.name ≠ name →
      (t.name ∈ (finishOne tasks exec s name).completed ↔ t.name ∈ s.completed) ∧
      (t.name ∈ (finishOne tasks exec s name).running ↔ t.name ∈ s.running)) := by
  obtain ⟨batches, hb⟩ := hreach
  have hInv : Inv tasks s := hb ▸ schedExec_inv tasks exec batches WF
  have hc : s.running.contains name = true := by simpa using hrun
  have hnc : name ∉ s.completed := hInv.rc name hrun
  have hne : name ≠ "" := name_ne_empty WF (hInv.rsub name hrun)
  have hres : ¬ (exec name).1 = true := by
    rw [hfail]
    exact Bool.false_ne_true
  have heq : finishOne tasks exec s name = cascade name
      (SchedState.mk (setAdd s.completed name) (setRemove s.running name)
        (dictUpd s.outputs name (exec name).2)
        (s.trace ++ [Event.finish name (exec name).1 (exec name).2])) tasks := by
    rw [finishOne_eq_of_running hc, if_neg hres]
  have hInv1 : Inv tasks (SchedState.mk (setAdd s.completed name)
      (setRemove s.running name) (dictUpd s.outputs name (exec name).2)
      (s.trace ++ [Event.finish name (exec name).1 (exec name).2])) :=
    finish_one_inv hInv hrun (exec name).1 (exec name).2
  have hfailtr : failedIn (s.trace ++
      [Event.finish name (exec name).1 (exec name).2]) name := by
    refine ⟨(exec name).2, ?_⟩
    rw [hfail]
    exact List.mem_append_right _ (by simp)
  have hnrun1 : ∀ u ∈ tasks, name ∈ u.dependencies →
      u.name ∉ setRemove s.running name := by
    intro u hu hud hmem2
    obtain ⟨hur, _⟩ := mem_setRemove.mp hmem2
    exact hnc (hInv.runDeps u hu hur name hud hne)
  obtain ⟨_, c2, c3, _, _, _⟩ := cascade_spec tasks name tasks
    (SchedState.mk (setAdd s.completed name) (setRemove s.running name)
      (dictUpd s.outputs name (exec name).2)
      (s.trace ++ [Event.finish name (exec name).1 (exec name).2]))
    (fun x hx => hx) hInv1 hfailtr hnrun1 hne
  refine ⟨?_, ?_, ?_⟩
  · intro t ht hdep hnc2
    obtain ⟨d1, d2, d3⟩ := finishOne_cascades tasks exec s name WF hInv hrun
      (by rw [hfail]) t ht hdep hnc2
    refine ⟨d1, d2, d3, ?_⟩
    intro hst
    rcases hInv.startLoc t.name hst with h | h
    · exact hnc (hInv.runDeps t ht h name hdep hne)
    · exact hnc2 h
  · exact (finishOne_spec tasks exec s name WF hInv).1.nst
  · intro t ht hndep hnn
    constructor
    · rw [heq]
      constructor
      · intro hx
        rcases cascade_completed_sub name tasks _ t.name hx with h | ⟨u, hu, h1, h2⟩
        · rcases mem_setAdd.mp h with he | hm
          · exact absurd he hnn
          · exact hm
        · have := name_inj WF.1 hu ht h1
          rw [this] at h2
          exact absurd h2 hndep
      · intro hx
        exact c3 t.name (mem_setAdd.mpr (Or.inr hx))
    · rw [heq]
      constructor
      · intro hx
        rw [c2] at hx
        exact (mem_setRemove.mp hx).1
      · intro hx
        rw [c2]
        exact mem_setRemove.mpr ⟨hx, hnn⟩

theorem c3_failure_cascade_witness :
    (∀ t ∈ exChain, "A" ∈ t.dependencies → t.name ∉ exFailMid.completed →
      Event.skip t.name "A" ∈ (finishOne exChain execFailA exFailMid "A").trace ∧
      (t.name, "Skipped due to failure in " ++ "A") ∈
        (finishOne exChain execFailA exFailMid "A").outputs ∧
      t.name ∈ (finishOne exChain execFailA exFailMid "A").completed ∧
      ¬ startIn exFailMid.trace t.name) ∧
    NoStartAfterTerm (finishOne exChain execFailA exFailMid "A").trace ∧
    (∀ t ∈ exChain, "A" ∉ t.dependencies → t.name ≠ "A" →
      (t.name ∈ (finishOne exChain execFailA exFailMid "A").completed ↔
        t.name ∈ exFailMid.completed) ∧
      (t.name ∈ (finishOne exChain execFailA exFailMid "A").running ↔
        t.name ∈ exFailMid.running)) :=
  c3_failure_cascade exChain execFailA exFailMid "A" ⟨by decide, by decide⟩
    ⟨[[]], rfl⟩ (by decide) (by decide)

/-- C5: the cascade is triggered only by a task reaching Failed, never by one
reaching Skipped — the recorded cause of every skip event in any reachable state
is a task that actually finished with failure — and a pending task all of whose
nonempty dependencies are terminal (skipped dependencies included, since
readiness checks membership in the terminal `completed` set rather than success)
is submitted for execution by the next readiness scan. -/
theorem c5_skip_not_cascading (tasks : List Task) (exec : String → Bool × String)
    (s : SchedState) (WF : WFNames tasks) (hreach : Reachable tasks exec s) :
    (∀ n c, Event.skip n c ∈ s.trace → failedIn s.trace c) ∧
    (∀ t ∈ tasks, t.name ∉ s.completed → t.name ∉ s.running →
      (∀ d ∈ t.dependencies, d ≠ "" → termIn s.trace d) →
      t.name ∈ (loopIter tasks exec s []).running ∧
      startIn (loopIter tasks exec s []).trace t.name) := by
  obtain ⟨batches, hb⟩ := hreach
  have hInv : Inv tasks s := hb ▸ schedExec_inv tasks exec batches WF
  refine ⟨fun n c hsk => (hInv.skipCause n c hsk).2, ?_⟩
  intro t ht hnc hnr hdeps
  have hdeps2 : ∀ d ∈ t.dependencies, d ≠ "" → d ∈ s.completed :=
    fun d hd hdne => (hInv.ct d).mpr (hdeps d hd hdne)
  have h := scanStart_submits tasks s WF.1 ht hnc hnr hdeps2
  show t.name ∈ (scanStart s tasks).running ∧ startIn (scanStart s tasks).trace t.name
  exact h

theorem c5_skip_not_cascading_witness :
    (∀ n c, Event.skip n c ∈ exSkipMid.trace → failedIn exSkipMid.trace c) ∧
    (∀ t ∈ exChain, t.name ∉ exSkipMid.completed → t.name ∉ exSkipMid.running →
      (∀ d ∈ t.dependencies, d ≠ "" → termIn exSkipMid.trace d) →
      t.name ∈ (loopIter exChain execFailA exSkipMid []).running ∧
      startIn (loopIter exChain execFailA exSkipMid []).trace t.name) :=
  c5_skip_not_cascading exChain execFailA exSkipMid ⟨by decide, by decide⟩
    ⟨[[], ["A"]], rfl⟩

/-- C6: when the dispatch loop of run mode exits, every task has been completed
(reached a terminal state) with an associated output string, transitioned into a
terminal state exactly once, no task was ever submitted for execution twice, and
the loop can only have ended with every task terminal. -/
theorem c6_terminal_exactly_once (tasks : List Task) (exec : String → Bool × String)
    (batches : List (List String)) (s : SchedState) (WF : WFNames tasks)
    (hrun : run_mode tasks exec batches = some s) :
    (∀ t ∈ tasks, t.name ∈ s.completed ∧ termCount s.trace t.name = 1 ∧
      ∃ o, (t.name, o) ∈ s.outputs) ∧
    (∀ n, startCount s.trace n ≤ 1) ∧
    NoStartAfterTerm s.trace ∧
    tasks.length ≤ s.completed.length := by
  rw [run_mode] at hrun
  obtain ⟨hInv, hlen⟩ := runLoop_inv tasks exec WF batches initState s
    (inv_init tasks) hrun
  refine ⟨?_, hInv.startOnce, hInv.nst, hlen⟩
  intro t ht
  have hcm : t.name ∈ s.completed := completed_all hInv hlen t ht
  refine ⟨hcm, ?_, (hInv.outDom t.name).mpr hcm⟩
  have h1 := termCount_pos ((hInv.ct t.name).mp hcm)
  have h2 := hInv.termOnce t.name
  omega

theorem c6_terminal_exactly_once_witness :
    (∀ t ∈ exChain, t.name ∈ exChainFinal.completed ∧
      termCount exChainFinal.trace t.name = 1 ∧
      ∃ o, (t.name, o) ∈ exChainFinal.outputs) ∧
    (∀ n, startCount exChainFinal.trace n ≤ 1) ∧
    NoStartAfterTerm exChainFinal.trace ∧
    exChain.length ≤ exChainFinal.completed.length :=
  c6_terminal_exactly_once exChain execOk [["A"], ["B"], ["C"]] exChainFinal
    ⟨by decide, by decide⟩ (by rfl)

end TaskSched
